import Mathlib

namespace Debuginfo

/-! Embedding of `jl_demangle` (src/src/debuginfo.cpp, lines 413-443).
Names are modelled as lists of characters (C strings contain no NUL). -/

/-- The five calling-convention prefixes checked by `jl_demangle` via `strncmp`. -/
def ccPrefixes : List (List Char) :=
  ["japi1_".toList, "japi3_".toList, "julia_".toList, "jsys1_".toList, "jlsys_".toList]

/-- A decimal digit, as tested by `jl_demangle` (`c < '0' || c > '9'`). -/
def isDigitChar (c : Char) : Prop := '0' ≤ c ∧ c ≤ '9'

instance (c : Char) : Decidable (isDigitChar c) := by unfold isDigitChar; infer_instance

/-- The backward scan of `jl_demangle`: `while (*(--end) != '_')` over the part of the
name after the 6-char prefix, given in reverse. Digits are skipped; the first `'_'`
found stops the scan, and the remaining (reversed) body must be non-empty
(the `end <= start` check). Any other character aborts (`goto done`).
The empty-list case corresponds to the scan reaching the prefix's own underscore. -/
def revScan : List Char → Option (List Char)
  | [] => none
  | c :: cs =>
    if c = '_' then (if cs = [] then none else some cs.reverse)
    else if isDigitChar c then revScan cs
    else none

/-- `jl_demangle(name)`: returns the (possibly stripped) name and whether the
name was recognized as a Julia-mangled (managed) name. -/
def jl_demangle (name : List Char) : List Char × Bool :=
  if 6 < name.length ∧ name.take 6 ∈ ccPrefixes then
    match revScan (name.drop 6).reverse with
    | some body => (body, true)
    | none => (name, false)
  else (name, false)

example : jl_demangle "julia_foo_42".toList = ("foo".toList, true) := by decide
example : jl_demangle "random_name".toList = ("random_name".toList, false) := by decide
example : jl_demangle "julia_foo_".toList = ("foo".toList, true) := by decide
example : jl_demangle "julia__42".toList = ("julia__42".toList, false) := by decide
example : jl_demangle "julia_12345".toList = ("julia_12345".toList, false) := by decide
example : jl_demangle "julia_".toList = ("julia_".toList, false) := by decide
example : jl_demangle "jlsys_a_1_2".toList = ("a_1".toList, true) := by decide

/-- Characterization of the backward scan. -/
theorem revScan_eq_some_iff (rr : List Char) (b : List Char) :
    revScan rr = some b ↔
      ∃ rd bs, rr = rd ++ '_' :: bs ∧ (∀ c ∈ rd, isDigitChar c) ∧ bs ≠ [] ∧
        b = bs.reverse := by
  constructor
  · intro h
    induction rr generalizing b with
    | nil => simp [revScan] at h
    | cons c cs ih =>
      by_cases hc : c = '_'
      · subst hc
        by_cases hcs : cs = []
        · simp [revScan, hcs] at h
        · rw [show revScan ('_' :: cs) = some cs.reverse by simp [revScan, hcs]] at h
          exact ⟨[], cs, by simp, by simp, hcs, (Option.some.inj h).symm⟩
      · by_cases hd : isDigitChar c
        · simp only [revScan, if_neg hc, if_pos hd] at h
          obtain ⟨rd, bs, hrr, hdig, hbs, hb⟩ := ih b h
          refine ⟨c :: rd, bs, by simp [hrr], ?_, hbs, hb⟩
          intro x hx
          rcases List.mem_cons.mp hx with rfl | hx2
          · exact hd
          · exact hdig x hx2
        · simp [revScan, if_neg hc, if_neg hd] at h
  · rintro ⟨rd, bs, rfl, hdig, hbs, rfl⟩
    induction rd with
    | nil => simp [revScan, hbs]
    | cons d rd ih =>
      have hd : isDigitChar d := hdig d (by simp)
      have hne : d ≠ '_' := by
        intro hEq
        rw [hEq] at hd
        exact absurd hd (by decide)
      simp only [List.cons_append, revScan, if_neg hne, if_pos hd]
      exact ih (fun c hc => hdig c (by simp [hc]))

theorem ccPrefixes_length {pre : List Char} (h : pre ∈ ccPrefixes) : pre.length = 6 := by
  fin_cases h <;> rfl

/-- C3: the demangler marks a name managed and strips it exactly when the name is one
of the five prefixes, a non-empty body, an underscore and a (possibly empty) run of
decimal digits; any other shape is returned unchanged and marked not-managed. -/
theorem jl_demangle_characterization (name : List Char) :
    (∃ pre body ds, pre ∈ ccPrefixes ∧ name = pre ++ body ++ '_' :: ds ∧ body ≠ [] ∧
        (∀ c ∈ ds, isDigitChar c) ∧ jl_demangle name = (body, true))
    ∨ ((¬ ∃ pre body ds, pre ∈ ccPrefixes ∧ name = pre ++ body ++ '_' :: ds ∧ body ≠ [] ∧
        (∀ c ∈ ds, isDigitChar c)) ∧ jl_demangle name = (name, false)) := by
  by_cases hguard : 6 < name.length ∧ name.take 6 ∈ ccPrefixes
  · rcases hscan : revScan (name.drop 6).reverse with _ | body
    · right
      constructor
      · rintro ⟨pre, body, ds, hpre, hname, hbody, hds⟩
        have hlen : pre.length = 6 := ccPrefixes_length hpre
        have hdrop : name.drop 6 = body ++ '_' :: ds := by
          rw [hname, List.append_assoc, ← hlen, List.drop_left]
        have : revScan (name.drop 6).reverse = some body := by
          rw [revScan_eq_some_iff]
          exact ⟨ds.reverse, body.reverse, by simp [hdrop], by simpa using hds,
            by simpa using hbody, by simp⟩
        rw [this] at hscan
        cases hscan
      · unfold jl_demangle
        rw [if_pos hguard, hscan]
    · left
      obtain ⟨rd, bs, hrr, hdig, hbs, hb⟩ := (revScan_eq_some_iff _ _).1 hscan
      have hdrop : name.drop 6 = bs.reverse ++ '_' :: rd.reverse := by
        have := congrArg List.reverse hrr
        simpa using this
      refine ⟨name.take 6, bs.reverse, rd.reverse, hguard.2, ?_, by simpa using hbs,
        ?_, ?_⟩
      · conv_lhs => rw [← List.take_append_drop 6 name]
        rw [hdrop, List.append_assoc]
      · intro c hc
        exact hdig c (by simpa using hc)
      · unfold jl_demangle
        rw [if_pos hguard, hscan, hb]
  · right
    constructor
    · rintro ⟨pre, body, ds, hpre, hname, hbody, hds⟩
      have hlen : pre.length = 6 := ccPrefixes_length hpre
      apply hguard
      constructor
      · rw [hname]
        simp only [List.length_append, List.length_cons, hlen]
        cases body with
        | nil => exact absurd rfl hbody
        | cons x xs => simp; omega
      · rw [hname, List.append_assoc, ← hlen, List.take_left]
        exact hpre
    · unfold jl_demangle
      rw [if_neg hguard]

end Debuginfo

namespace Debuginfo

/-! Embedding of the JIT debug-info registry (src/src/debuginfo.cpp):
`add_code_in_flight` (line 95), `lookupCodeInstance` (lines 99-108) and
`registerJITObject` (lines 238-404). Registry maps are modelled as association
lists with the C++ `std::map` semantics made explicit. -/

/-- `uintptr_t` / `size_t` modulus on the 64-bit platforms this file targets. -/
def U64 : Nat := 2 ^ 64

/-- `std::map::operator[] =` / StringMap assignment: insert, overwriting any
existing entry for the key. -/
def insertReplace {κ α : Type} [DecidableEq κ] (m : List (κ × α)) (k : κ) (v : α) :
    List (κ × α) :=
  (k, v) :: m.filter (fun kv => kv.1 ≠ k)

/-- `std::map::insert`: insert only if the key is not already present. -/
def insertKeep {κ α : Type} [DecidableEq κ] (m : List (κ × α)) (k : κ) (v : α) :
    List (κ × α) :=
  if (m.map Prod.fst).contains k then m else (k, v) :: m

/-- Association-list lookup (first match). -/
def alookup {κ α : Type} [DecidableEq κ] : List (κ × α) → κ → Option α
  | [], _ => none
  | kv :: m, k => if kv.1 = k then some kv.2 else alookup m k

/-- Erase the first entry with the given key (`map.erase(iterator)`). -/
def aerase {κ α : Type} [DecidableEq κ] : List (κ × α) → κ → List (κ × α)
  | [], _ => []
  | kv :: m, k => if kv.1 = k then m else kv :: aerase m k

/-- Modelled from the spec: the address-keyed registry maps are ordered
descending (`std::map<…, std::greater<…>>`, declared in debug-registry.h which
is outside src/), so `lower_bound(addr)` finds the greatest stored key that is
less than or equal to `addr` (spec section 4.1, `lookupMetadataByAddress`). -/
def lookupLE {α : Type} (m : List (Nat × α)) (p : Nat) : Option (Nat × α) :=
  m.foldl (fun best kv =>
    if kv.1 ≤ p then
      match best with
      | none => some kv
      | some b => if b.1 < kv.1 then some kv else best
    else best) none

/-- A section of an emitted object image: name, address inside the object,
size, whether it is a text section, and its section index. -/
structure SectM where
  name : String
  addr : Nat
  size : Nat
  isText : Bool
  index : Nat
deriving DecidableEq

/-- A symbol of an emitted object image, together with the size computed for it
by `object::computeSymbolSizes`. -/
structure SymM where
  name : String
  isFunc : Bool
  sect : Option SectM
  addr : Nat
  size : Nat
deriving DecidableEq

/-- The per-section record stored in the object map (`SectionInfo` minus the
shared image pointer, whose lifecycle is modelled separately). -/
structure SectionInfoM where
  secSize : Nat
  slide : Int
  index : Nat
deriving DecidableEq

/-- The registry state tracked by the claims: the pending (in-flight) symbol
map, the address-range→code-instance map (`cimap`) and the section map
(`objectmap`). Code-instance handles are abstract `Nat` tokens. -/
structure RegistryM where
  inflight : List (String × Nat)
  cimap : List (Nat × Nat × Nat)
  objectmap : List (Nat × SectionInfoM)
deriving DecidableEq

def emptyRegistry : RegistryM := ⟨[], [], []⟩

/-- `JITDebugInfoRegistry::add_code_in_flight`, taking the platform-mangled
name directly (mangling itself is done by LLVM's `Mangler`, an external
collaborator). -/
def add_code_in_flight (r : RegistryM) (mangled : String) (ci : Nat) : RegistryM :=
  { r with inflight := insertReplace r.inflight mangled ci }

/-- `JITDebugInfoRegistry::lookupCodeInstance(pointer)`: greatest key at most
`pointer`; succeeds only if `pointer < key + size` (size_t arithmetic). -/
def lookupCodeInstance (cimap : List (Nat × Nat × Nat)) (p : Nat) : Option Nat :=
  match lookupLE cimap p with
  | some (k, sz, ci) => if p < (k + sz) % U64 then some ci else none
  | none => none

/-- One iteration of the per-symbol loop of `registerJITObject`
(lines 355-401): skip non-function symbols and symbols without a text section;
otherwise compute the final address, consume a pending in-flight entry if one
matches, and update `cimap` and `objectmap`. -/
def registerSym (getLoadAddress : String → Nat) (r : RegistryM) (sym : SymM) :
    RegistryM :=
  if sym.isFunc then
    match sym.sect with
    | some s =>
      if s.isText then
        let load := getLoadAddress s.name
        let addr := (sym.addr + load + (U64 - s.addr % U64)) % U64
        let found := alookup r.inflight sym.name
        let inflight2 := match found with
          | some _ => aerase r.inflight sym.name
          | none => r.inflight
        let cimap2 := match found with
          | some ci => insertReplace r.cimap addr (sym.size, ci)
          | none => r.cimap
        { inflight := inflight2, cimap := cimap2,
          objectmap := insertKeep r.objectmap load
            ⟨s.size, (s.addr : Int) - (load : Int), s.index⟩ }
      else r
    | none => r
  else r

/-- `JITDebugInfoRegistry::registerJITObject` (lines 238-404): an image with no
function-typed symbol is skipped entirely; otherwise every function symbol in a
text section is processed by `registerSym`. -/
def registerJITObject (r : RegistryM) (syms : List SymM)
    (getLoadAddress : String → Nat) : RegistryM :=
  if syms.any (fun s => s.isFunc) then syms.foldl (registerSym getLoadAddress) r
  else r

/-- A single function symbol with mangled name `nm`, resolving (under the zero
load-address resolver) to address `A`, with inferred size `S`. -/
def oneFuncSym (nm : String) (A S : Nat) : SymM :=
  ⟨nm, true, some ⟨"text", 0, S, true, 0⟩, A, S⟩

/-- C1: after recording a pending handle for mangled name "X" and registering
an object whose function symbol "X" resolves to address `A` with size `S`,
`lookupCodeInstance` returns the handle exactly on `[A, A + S)`. -/
theorem pending_to_final_correlation (A S h p : Nat) (hAS : A + S < U64) :
    lookupCodeInstance
      ((registerJITObject (add_code_in_flight emptyRegistry "X" h)
        [oneFuncSym "X" A S] (fun _ => 0)).cimap) p
      = if A ≤ p ∧ p < A + S then some h else none := by
  have hA : A < U64 := by omega
  have hreg : (registerJITObject (add_code_in_flight emptyRegistry "X" h)
      [oneFuncSym "X" A S] (fun _ => 0)).cimap = [(A, S, h)] := by
    simp [registerJITObject, oneFuncSym, List.any, registerSym, add_code_in_flight,
      emptyRegistry, insertReplace, alookup, aerase, insertKeep,
      Nat.mod_eq_of_lt hA]
  rw [hreg]
  simp only [lookupCodeInstance, lookupLE, List.foldl]
  by_cases hle : A ≤ p
  · rw [if_pos hle]
    simp only [Nat.mod_eq_of_lt hAS]
    by_cases hlt : p < A + S
    · rw [if_pos hlt, if_pos ⟨hle, hlt⟩]
    · rw [if_neg hlt, if_neg (by omega)]
  · rw [if_neg hle, if_neg (by omega)]

theorem pending_to_final_correlation_witness :
    lookupCodeInstance
      ((registerJITObject (add_code_in_flight emptyRegistry "X" 7)
        [oneFuncSym "X" 100 10] (fun _ => 0)).cimap) 105 = some 7
    ∧ lookupCodeInstance
      ((registerJITObject (add_code_in_flight emptyRegistry "X" 7)
        [oneFuncSym "X" 100 10] (fun _ => 0)).cimap) 110 = none := by
  constructor
  · rw [pending_to_final_correlation 100 10 7 105 (by norm_num [U64])]
    norm_num
  · rw [pending_to_final_correlation 100 10 7 110 (by norm_num [U64])]
    norm_num

/-- C9: registering an object image with no function-typed symbols leaves the
registry completely unchanged. -/
theorem registerJITObject_no_functions (r : RegistryM) (syms : List SymM)
    (f : String → Nat) (h : ∀ s ∈ syms, s.isFunc = false) :
    registerJITObject r syms f = r := by
  have hany : syms.any (fun s => s.isFunc) = false := by
    simp only [List.any_eq_false]
    intro s hs
    simp [h s hs]
  unfold registerJITObject
  rw [hany]
  simp

theorem registerJITObject_no_functions_witness :
    registerJITObject ⟨[("a", 1)], [(5, 2, 3)], []⟩
      [⟨"d", false, none, 0, 0⟩] (fun _ => 0) = ⟨[("a", 1)], [(5, 2, 3)], []⟩ :=
  registerJITObject_no_functions _ _ _ (by decide)

end Debuginfo

namespace Debuginfo

/-! Embedding of the LEB128 decoders (src/src/debuginfo.cpp, lines 1334-1368).
Memory is a total byte function; `parse_leb128` is instantiated in the source at
`T = uintptr_t` and `T = intptr_t`, both 64 bits wide on the targeted platforms. -/

/-- `consume_leb128(Addr, End)`: skip an arbitrarily long LEB128 encoding,
returning the first unprocessed position. -/
def consumeGo (mem : Nat → Nat) (e : Nat) : Nat → Nat → Nat
  | 0, p => p + 1
  | fuel + 1, p => if mem p >>> 7 ≠ 0 ∧ p < e then consumeGo mem e fuel (p + 1) else p + 1

def consume_leb128 (mem : Nat → Nat) (addr e : Nat) : Nat :=
  consumeGo mem e (e - addr) addr

/-- The loop of `parse_leb128<T>`: `fuel` is the number of remaining iterations
(the loop bound is `(sizeof(T)*8 - 1)/7 + 1`), `i` the current group index and
`v` the accumulator, kept as a `w`-bit pattern. When the loop runs out, the
remaining input is skipped with `consume_leb128` and the accumulated value is
returned; the literal 64 in the sign-extension guard is the source's own
hard-coded constant. -/
def parseGo (w : Nat) (signed : Bool) (mem : Nat → Nat) (e : Nat) :
    Nat → Nat → Nat → Nat → Nat × Nat
  | 0, addr, _, v => (v, consume_leb128 mem addr e)
  | fuel + 1, addr, i, v =>
    if mem addr &&& 128 = 0 ∨ e ≤ addr + 1 then
      (if signed = true ∧ mem addr &&& 64 ≠ 0 ∧ (i + 1) * 7 < 64 then
        (v ||| ((mem addr &&& 127) <<< (i * 7) % 2 ^ w)) ||| (2 ^ w - 2 ^ ((i + 1) * 7))
       else v ||| ((mem addr &&& 127) <<< (i * 7) % 2 ^ w), addr + 1)
    else parseGo w signed mem e fuel (addr + 1) (i + 1)
      (v ||| ((mem addr &&& 127) <<< (i * 7) % 2 ^ w))

/-- `parse_leb128<T>(Addr, End)` for a `w`-bit type `T`; returns the decoded
`w`-bit pattern and the first unprocessed position. -/
def parse_leb128 (w : Nat) (signed : Bool) (mem : Nat → Nat) (addr e : Nat) :
    Nat × Nat :=
  parseGo w signed mem e ((w - 1) / 7 + 1) addr 0 0

/-- The payload bytes a LEB128 decode starting at `addr` reads: bytes up to and
including the first one with the continuation bit clear, or the last byte
before `e`, whichever comes first (`fuel` bounds the walk; `e - addr` always
suffices). -/
def lebGroups (mem : Nat → Nat) (e : Nat) : Nat → Nat → List Nat
  | 0, addr => [mem addr]
  | fuel + 1, addr =>
    if mem addr &&& 128 = 0 ∨ e ≤ addr + 1 then [mem addr]
    else mem addr :: lebGroups mem e fuel (addr + 1)

/-- The unbounded (mathematical) value of a list of LEB128 payload bytes. -/
def lebValue : List Nat → Nat
  | [] => 0
  | a :: gs => (a &&& 127) + 128 * lebValue gs

def lebLast : List Nat → Nat
  | [] => 0
  | [a] => a
  | _ :: b :: gs => lebLast (b :: gs)

/-- The unbounded signed value of a list of LEB128 payload bytes: the unsigned
value, minus `2^(7n)` when the final byte's sign bit (0x40) is set, i.e. the
value with the sign extended through all higher bits. -/
def lebSigned (gs : List Nat) : Int :=
  (lebValue gs : Int) - (if lebLast gs &&& 64 ≠ 0 then (2 : Int) ^ (7 * gs.length) else 0)

theorem lebGroups_ne_nil (mem : Nat → Nat) (e fuel addr : Nat) :
    lebGroups mem e fuel addr ≠ [] := by
  cases fuel with
  | zero => simp [lebGroups]
  | succ f =>
    unfold lebGroups
    split <;> simp

theorem lebGroups_stop (mem : Nat → Nat) (e fuel addr : Nat)
    (h : mem addr &&& 128 = 0 ∨ e ≤ addr + 1) :
    lebGroups mem e fuel addr = [mem addr] := by
  cases fuel with
  | zero => rfl
  | succ f => rw [lebGroups, if_pos h]

theorem lebSigned_cons (a : Nat) (gs : List Nat) (h : gs ≠ []) :
    lebSigned (a :: gs) = ((a &&& 127 : Nat) : Int) + 128 * lebSigned gs := by
  have hlast : lebLast (a :: gs) = lebLast gs := by
    cases gs with
    | nil => exact absurd rfl h
    | cons b bs => rfl
  unfold lebSigned
  rw [hlast]
  simp only [lebValue, List.length_cons]
  push_cast
  split <;> ring

/-- Arithmetic helper: adding a multiple of `2^64` does not change the value
mod `2^64`. -/
theorem drop_mul_mod (x T P Q q b2 : Nat) (h : P * Q = 2 ^ 64) :
    (x + P * (b2 + Q * q) + T) % 2 ^ 64 = (x + P * b2 + T) % 2 ^ 64 := by
  have hrw : x + P * (b2 + Q * q) + T = x + P * b2 + T + 2 ^ 64 * q := by
    rw [← h]; ring
  rw [hrw, Nat.add_mul_mod_self_left]

theorem drop_mul_emod_int (x T : Int) (q : Int) :
    (x + 2 ^ 64 * q + T) % 2 ^ 64 = (x + T) % 2 ^ 64 := by
  have hrw : x + 2 ^ 64 * q + T = x + T + 2 ^ 64 * q := by ring
  rw [hrw, Int.add_mul_emod_self_left]

/-- The or-assignment `v |= uT(a & 0x7f) << (i*7)` on a `2^64`-bit accumulator
holding only bits below `i*7` is an addition. -/
theorem or_shift_eq_add (v b k : Nat) (hv : v < 2 ^ k) (hk : k ≤ 63) :
    v ||| (b <<< k % 2 ^ 64) = v + 2 ^ k * (b % 2 ^ (64 - k)) := by
  have hsplit : (2 : Nat) ^ (64 - k) * 2 ^ k = 2 ^ 64 := by
    rw [← pow_add]
    congr 1
    omega
  have hmod : b <<< k % 2 ^ 64 = (b % 2 ^ (64 - k)) * 2 ^ k := by
    rw [Nat.shiftLeft_eq, ← hsplit, Nat.mul_mod_mul_right]
  rw [hmod, Nat.or_comm, mul_comm, ← Nat.mul_add_lt_is_or hv]
  ring

end Debuginfo

namespace Debuginfo

theorem pow_split_64 (k : Nat) (hk : k ≤ 64) : (2 : Nat) ^ k * 2 ^ (64 - k) = 2 ^ 64 := by
  rw [← pow_add]
  congr 1
  omega

/-- Bound on the accumulator: one more masked group keeps it below `2^64`. -/
theorem acc_bound (v m k : Nat) (hv : v < 2 ^ k) (hk : k ≤ 63) (hm : m < 2 ^ (64 - k)) :
    v + 2 ^ k * m < 2 ^ 64 := by
  calc v + 2 ^ k * m < 2 ^ k + 2 ^ k * m := by omega
    _ = 2 ^ k * (1 + m) := by ring
    _ ≤ 2 ^ k * 2 ^ (64 - k) := Nat.mul_le_mul_left _ (by omega)
    _ = 2 ^ 64 := pow_split_64 k (by omega)

/-- Bound on the accumulator: one more 7-bit group keeps it below `2^(k+7)`. -/
theorem acc_bound7 (v m k : Nat) (hv : v < 2 ^ k) (hm : m ≤ 127) :
    v + 2 ^ k * m < 2 ^ (k + 7) := by
  calc v + 2 ^ k * m < 2 ^ k + 2 ^ k * m := by omega
    _ = 2 ^ k * (1 + m) := by ring
    _ ≤ 2 ^ k * 2 ^ 7 := Nat.mul_le_mul_left _ (by omega)
    _ = 2 ^ (k + 7) := by rw [← pow_add]

/-- The stop-case equation of the unsigned decoder: the masked contribution of
the final group equals the full contribution mod `2^64`. -/
theorem stop_case_eq (v b k : Nat) (hv : v < 2 ^ k) (hk : k ≤ 63) :
    v + 2 ^ k * (b % 2 ^ (64 - k)) = (v + 2 ^ k * b) % 2 ^ 64 := by
  have hsplit : (2 : Nat) ^ k * 2 ^ (64 - k) = 2 ^ 64 := pow_split_64 k (by omega)
  have hb : v + 2 ^ k * b
      = v + 2 ^ k * (b % 2 ^ (64 - k)) + 2 ^ 64 * (b / 2 ^ (64 - k)) := by
    conv_lhs => rw [← Nat.mod_add_div b (2 ^ (64 - k))]
    rw [← hsplit]
    ring
  rw [hb, Nat.add_mul_mod_self_left,
    Nat.mod_eq_of_lt (acc_bound _ _ _ hv hk (Nat.mod_lt _ (Nat.pos_pow_of_pos _ (by omega))))]

theorem and127_le (a : Nat) : a &&& 127 ≤ 127 := Nat.and_le_right

/-- The exhausted-loop case: contributions at shift 70 and above vanish mod `2^64`. -/
theorem exhaust_case (v L : Nat) (hv64 : v < 2 ^ 64) :
    v = (v + 2 ^ (10 * 7) * L) % 2 ^ 64 := by
  have hrw : v + 2 ^ (10 * 7) * L = v + 2 ^ 64 * (2 ^ 6 * L) := by
    rw [← mul_assoc, ← pow_add]
  rw [hrw, Nat.add_mul_mod_self_left, Nat.mod_eq_of_lt hv64]

/-- Main lemma, unsigned decoder: the loop computes the unbounded LEB value of
the groups it would read, truncated to 64 bits. -/
theorem parseGo_unsigned (mem : Nat → Nat) (e : Nat) :
    ∀ gfuel pfuel addr i v, pfuel + i = 10 → v < 2 ^ (i * 7) → v < 2 ^ 64 →
      e ≤ addr + gfuel →
      (parseGo 64 false mem e pfuel addr i v).1
        = (v + 2 ^ (i * 7) * lebValue (lebGroups mem e gfuel addr)) % 2 ^ 64 := by
  intro gfuel
  induction gfuel with
  | zero =>
    intro pfuel addr i v hpi hvk hv64 he
    have hstop : mem addr &&& 128 = 0 ∨ e ≤ addr + 1 := Or.inr (by omega)
    rw [lebGroups_stop mem e 0 addr hstop]
    cases pfuel with
    | zero =>
      have hi : i = 10 := by omega
      subst hi
      simp only [parseGo]
      exact exhaust_case v _ hv64
    | succ p =>
      have hk : i * 7 ≤ 63 := by omega
      simp only [parseGo, if_pos hstop]
      rw [if_neg (by simp), or_shift_eq_add v (mem addr &&& 127) (i * 7) hvk hk]
      simp only [lebValue, Nat.mul_zero, Nat.add_zero]
      exact stop_case_eq v (mem addr &&& 127) (i * 7) hvk hk
  | succ g ih =>
    intro pfuel addr i v hpi hvk hv64 he
    cases pfuel with
    | zero =>
      have hi : i = 10 := by omega
      subst hi
      simp only [parseGo]
      exact exhaust_case v _ hv64
    | succ p =>
      have hk : i * 7 ≤ 63 := by omega
      by_cases hstop : mem addr &&& 128 = 0 ∨ e ≤ addr + 1
      · rw [lebGroups_stop mem e (g + 1) addr hstop]
        simp only [parseGo, if_pos hstop]
        rw [if_neg (by simp), or_shift_eq_add v (mem addr &&& 127) (i * 7) hvk hk]
        simp only [lebValue, Nat.mul_zero, Nat.add_zero]
        exact stop_case_eq v (mem addr &&& 127) (i * 7) hvk hk
      · have hgrp : lebGroups mem e (g + 1) addr
            = mem addr :: lebGroups mem e g (addr + 1) := by
          rw [lebGroups, if_neg hstop]
        simp only [parseGo, if_neg hstop]
        rw [or_shift_eq_add v (mem addr &&& 127) (i * 7) hvk hk]
        set b := mem addr &&& 127 with hbdef
        set m := b % 2 ^ (64 - i * 7) with hmdef
        have hble : b ≤ 127 := and127_le (mem addr)
        have hmle : m ≤ 127 := le_trans (Nat.mod_le _ _) hble
        have hmlt : m < 2 ^ (64 - i * 7) := Nat.mod_lt _ (Nat.pos_pow_of_pos _ (by omega))
        have hv2k : v + 2 ^ (i * 7) * m < 2 ^ ((i + 1) * 7) := by
          have hb7 := acc_bound7 v m (i * 7) hvk hmle
          have hexp : i * 7 + 7 = (i + 1) * 7 := by ring
          rwa [hexp] at hb7
        have hv264 : v + 2 ^ (i * 7) * m < 2 ^ 64 := acc_bound v m (i * 7) hvk hk hmlt
        rw [ih p (addr + 1) (i + 1) _ (by omega) hv2k hv264 (by omega), hgrp]
        simp only [lebValue]
        have hq : b = m + 2 ^ (64 - i * 7) * (b / 2 ^ (64 - i * 7)) := by
          rw [hmdef, Nat.mod_add_div]
        have hrhs : v + 2 ^ (i * 7) * (b + 128 * lebValue (lebGroups mem e g (addr + 1)))
            = v + 2 ^ (i * 7) * (m + 2 ^ (64 - i * 7) * (b / 2 ^ (64 - i * 7)))
              + 2 ^ ((i + 1) * 7) * lebValue (lebGroups mem e g (addr + 1)) := by
          conv_lhs => rw [hq]
          have hexp : (2 : Nat) ^ ((i + 1) * 7) = 2 ^ (i * 7) * 128 := by
            have h7 : (i + 1) * 7 = i * 7 + 7 := by ring
            rw [h7, pow_add]
            norm_num
          rw [hexp]
          ring
        rw [hrhs,
          drop_mul_mod v (2 ^ ((i + 1) * 7) * lebValue (lebGroups mem e g (addr + 1)))
            (2 ^ (i * 7)) (2 ^ (64 - i * 7)) (b / 2 ^ (64 - i * 7)) m
            (pow_split_64 (i * 7) (by omega))]

end Debuginfo

namespace Debuginfo

theorem toNat_cast_emod_pow (N : Nat) : ((N : Int) % 2 ^ 64).toNat = N % 2 ^ 64 := by
  have h1 : (N : Int) % 2 ^ 64 = ((N % 2 ^ 64 : Nat) : Int) := by norm_cast
  rw [h1, Int.toNat_natCast]

/-- The exhausted-loop case, signed: contributions at shift 70 and above vanish. -/
theorem exhaust_case_int (v : Nat) (S : Int) (hv64 : v < 2 ^ 64) :
    v = (((v : Int) + 2 ^ (10 * 7) * S) % 2 ^ 64).toNat := by
  have hrw : (v : Int) + 2 ^ (10 * 7) * S = v + 2 ^ 64 * (2 ^ 6 * S) := by
    rw [← mul_assoc, ← pow_add]
  rw [hrw, Int.add_mul_emod_self_left, toNat_cast_emod_pow, Nat.mod_eq_of_lt hv64]

/-- Signed stop case, sign bit clear (or extension made moot): identical to the
unsigned stop case. -/
theorem stop_signed_noext (v b k : Nat) (hv : v < 2 ^ k) (hk : k ≤ 63) :
    v + 2 ^ k * (b % 2 ^ (64 - k)) = (((v : Int) + 2 ^ k * (b : Int)) % 2 ^ 64).toNat := by
  have hcast : (v : Int) + 2 ^ k * (b : Int) = ((v + 2 ^ k * b : Nat) : Int) := by
    push_cast
    ring
  rw [hcast, toNat_cast_emod_pow]
  exact stop_case_eq v b k hv hk

/-- Signed stop case with sign extension (`valid_bits = (i+1)*7 ≤ 63`): or-ing in
the high mask realizes the subtraction of `2^(k+7)` mod `2^64`. -/
theorem stop_signed_ext (v b k : Nat) (hv : v < 2 ^ k) (hk : k ≤ 56) (hb : b ≤ 127) :
    (v + 2 ^ k * (b % 2 ^ (64 - k))) ||| (2 ^ 64 - 2 ^ ((k + 7)))
      = (((v : Int) + 2 ^ k * ((b : Int) - 2 ^ 7)) % 2 ^ 64).toNat := by
  have hbm : b % 2 ^ (64 - k) = b := by
    apply Nat.mod_eq_of_lt
    calc b ≤ 127 := hb
      _ < 2 ^ 8 := by norm_num
      _ ≤ 2 ^ (64 - k) := Nat.pow_le_pow_right (by norm_num) (by omega)
  rw [hbm]
  have hlt : v + 2 ^ k * b < 2 ^ (k + 7) := acc_bound7 v b k hv hb
  have hsplit : (2 : Nat) ^ (k + 7) * 2 ^ (57 - k) = 2 ^ 64 := by
    rw [← pow_add]
    congr 1
    omega
  have hmask : (2 : Nat) ^ 64 - 2 ^ (k + 7) = 2 ^ (k + 7) * (2 ^ (57 - k) - 1) := by
    rw [Nat.mul_sub_one, hsplit]
  have hor : (v + 2 ^ k * b) ||| (2 ^ 64 - 2 ^ (k + 7))
      = (2 ^ 64 - 2 ^ (k + 7)) + (v + 2 ^ k * b) := by
    rw [hmask, Nat.or_comm, ← Nat.mul_add_lt_is_or hlt]
  rw [hor]
  have hcast : (v : Int) + 2 ^ k * ((b : Int) - 2 ^ 7)
      = ((v + 2 ^ k * b : Nat) : Int) - ((2 ^ (k + 7) : Nat) : Int) := by
    push_cast
    rw [pow_add]
    ring
  rw [hcast]
  have hle64 : (2 : Nat) ^ (k + 7) ≤ 2 ^ 64 := Nat.pow_le_pow_right (by norm_num) (by omega)
  have h64n : (2 : Nat) ^ 64 = 18446744073709551616 := by norm_num
  have h64i : (2 : Int) ^ 64 = 18446744073709551616 := by norm_num
  rw [h64n, h64i] at *
  omega

/-- Signed stop case at the last in-cap group (`i = 9`): `valid_bits = 70` exceeds
64, so no extension is applied, and the subtracted `2^70` vanishes mod `2^64`. -/
theorem stop_signed_corner (v b : Nat) (hv : v < 2 ^ 63) (_hb : b ≤ 127) :
    v + 2 ^ 63 * (b % 2 ^ 1)
      = (((v : Int) + 2 ^ 63 * ((b : Int) - 2 ^ 7)) % 2 ^ 64).toNat := by
  have h63n : (2 : Nat) ^ 63 = 9223372036854775808 := by norm_num
  have h1n : (2 : Nat) ^ 1 = 2 := by norm_num
  have h63i : (2 : Int) ^ 63 = 9223372036854775808 := by norm_num
  have h64i : (2 : Int) ^ 64 = 18446744073709551616 := by norm_num
  have h7i : (2 : Int) ^ 7 = 128 := by norm_num
  rw [h63n, h1n, h63i, h64i, h7i]
  rw [h63n] at hv
  omega

theorem lebSigned_single (a : Nat) :
    lebSigned [a] = ((a &&& 127 : Nat) : Int) - (if a &&& 64 ≠ 0 then 2 ^ 7 else 0) := by
  simp [lebSigned, lebValue, lebLast]

/-- The signed stop case for one remaining loop iteration, all sign sub-cases. -/
theorem stop_succ_signed (mem : Nat → Nat) (e p addr i v : Nat)
    (hstop : mem addr &&& 128 = 0 ∨ e ≤ addr + 1) (hk : i * 7 ≤ 63)
    (hvk : v < 2 ^ (i * 7)) :
    (parseGo 64 true mem e (p + 1) addr i v).1
      = (((v : Int) + 2 ^ (i * 7) * lebSigned [mem addr]) % 2 ^ 64).toNat := by
  simp only [parseGo, if_pos hstop]
  rw [lebSigned_single]
  by_cases hsign : mem addr &&& 64 ≠ 0
  · by_cases hvb : (i + 1) * 7 < 64
    · rw [if_pos ⟨trivial, hsign, hvb⟩, if_pos hsign,
        or_shift_eq_add v (mem addr &&& 127) (i * 7) hvk hk]
      have hka : i * 7 + 7 = (i + 1) * 7 := by ring
      have hext := stop_signed_ext v (mem addr &&& 127) (i * 7) hvk (by omega)
        (and127_le _)
      rw [hka] at hext
      exact hext
    · have hi9 : i = 9 := by omega
      subst hi9
      rw [if_neg (by norm_num), if_pos hsign,
        or_shift_eq_add v (mem addr &&& 127) (9 * 7) hvk hk]
      have h97 : (9 : Nat) * 7 = 63 := by norm_num
      have h649 : 64 - 9 * 7 = 1 := by norm_num
      rw [h649, h97]
      rw [h97] at hvk
      exact stop_signed_corner v (mem addr &&& 127) hvk (and127_le _)
  · rw [if_neg (by simp [hsign]), if_neg hsign,
      or_shift_eq_add v (mem addr &&& 127) (i * 7) hvk hk, sub_zero]
    exact stop_signed_noext v (mem addr &&& 127) (i * 7) hvk hk

/-- Main lemma, signed decoder: the loop computes the unbounded sign-extended
LEB value of the groups it would read, truncated to 64 bits. -/
theorem parseGo_signed (mem : Nat → Nat) (e : Nat) :
    ∀ gfuel pfuel addr i v, pfuel + i = 10 → v < 2 ^ (i * 7) → v < 2 ^ 64 →
      e ≤ addr + gfuel →
      (parseGo 64 true mem e pfuel addr i v).1
        = (((v : Int) + 2 ^ (i * 7) * lebSigned (lebGroups mem e gfuel addr))
            % 2 ^ 64).toNat := by
  intro gfuel
  induction gfuel with
  | zero =>
    intro pfuel addr i v hpi hvk hv64 he
    have hstop : mem addr &&& 128 = 0 ∨ e ≤ addr + 1 := Or.inr (by omega)
    rw [lebGroups_stop mem e 0 addr hstop]
    cases pfuel with
    | zero =>
      have hi : i = 10 := by omega
      subst hi
      simp only [parseGo]
      exact exhaust_case_int v _ hv64
    | succ p =>
      exact stop_succ_signed mem e p addr i v hstop (by omega) hvk
  | succ g ih =>
    intro pfuel addr i v hpi hvk hv64 he
    cases pfuel with
    | zero =>
      have hi : i = 10 := by omega
      subst hi
      simp only [parseGo]
      exact exhaust_case_int v _ hv64
    | succ p =>
      by_cases hstop : mem addr &&& 128 = 0 ∨ e ≤ addr + 1
      · rw [lebGroups_stop mem e (g + 1) addr hstop]
        exact stop_succ_signed mem e p addr i v hstop (by omega) hvk
      · have hk : i * 7 ≤ 63 := by omega
        have hgrp : lebGroups mem e (g + 1) addr
            = mem addr :: lebGroups mem e g (addr + 1) := by
          rw [lebGroups, if_neg hstop]
        simp only [parseGo, if_neg hstop]
        rw [or_shift_eq_add v (mem addr &&& 127) (i * 7) hvk hk]
        set b := mem addr &&& 127 with hbdef
        set m := b % 2 ^ (64 - i * 7) with hmdef
        have hble : b ≤ 127 := and127_le (mem addr)
        have hmle : m ≤ 127 := le_trans (Nat.mod_le _ _) hble
        have hmlt : m < 2 ^ (64 - i * 7) := Nat.mod_lt _ (Nat.pos_pow_of_pos _ (by omega))
        have hv2k : v + 2 ^ (i * 7) * m < 2 ^ ((i + 1) * 7) := by
          have hb7 := acc_bound7 v m (i * 7) hvk hmle
          have hexp : i * 7 + 7 = (i + 1) * 7 := by ring
          rwa [hexp] at hb7
        have hv264 : v + 2 ^ (i * 7) * m < 2 ^ 64 := acc_bound v m (i * 7) hvk hk hmlt
        rw [ih p (addr + 1) (i + 1) _ (by omega) hv2k hv264 (by omega), hgrp]
        rw [lebSigned_cons _ _ (lebGroups_ne_nil mem e g (addr + 1))]
        set S := lebSigned (lebGroups mem e g (addr + 1)) with hS
        have hq : b = m + 2 ^ (64 - i * 7) * (b / 2 ^ (64 - i * 7)) := by
          rw [hmdef, Nat.mod_add_div]
        have hsplit : (2 : Int) ^ (i * 7) * 2 ^ (64 - i * 7) = 2 ^ 64 := by
          rw [← pow_add]
          congr 1
          omega
        have hm : ((v + 2 ^ (i * 7) * m : Nat) : Int)
            = (v : Int) + (2 : Int) ^ (i * 7) * (m : Int) := by
          push_cast
          ring
        have hq2 : ((2 ^ (64 - i * 7) : Nat) : Int) = (2 : Int) ^ (64 - i * 7) := by
          push_cast
          ring
        have hbq : ((b : Nat) : Int)
            = (m : Int) + (2 : Int) ^ (64 - i * 7) * ((b / 2 ^ (64 - i * 7) : Nat) : Int) := by
          rw [← hq2, ← Nat.cast_mul, ← Nat.cast_add]
          exact congrArg _ hq
        have hexp : (2 : Int) ^ ((i + 1) * 7) = 2 ^ (i * 7) * 128 := by
          have h7 : (i + 1) * 7 = i * 7 + 7 := by ring
          rw [h7, pow_add]
          norm_num
        have hcast : (v : Int) + 2 ^ (i * 7) * (((b : Nat) : Int) + 128 * S)
            = ((v + 2 ^ (i * 7) * m : Nat) : Int) + 2 ^ ((i + 1) * 7) * S
              + 2 ^ 64 * ((b / 2 ^ (64 - i * 7) : Nat) : Int) := by
          rw [hm, hbq, hexp, ← hsplit]
          ring
        rw [hcast]
        have hfinal : (((v + 2 ^ (i * 7) * m : Nat) : Int) + 2 ^ ((i + 1) * 7) * S
              + 2 ^ 64 * ((b / 2 ^ (64 - i * 7) : Nat) : Int)) % 2 ^ 64
            = (((v + 2 ^ (i * 7) * m : Nat) : Int) + 2 ^ ((i + 1) * 7) * S) % 2 ^ 64 :=
          Int.add_mul_emod_self_left _ _ _
        rw [hfinal]

end Debuginfo

namespace Debuginfo

theorem toNat_emod_lt (S : Int) : (S % 2 ^ 64).toNat < 2 ^ 64 := by
  have h1 : S % 2 ^ 64 < 2 ^ 64 := Int.emod_lt_of_pos _ (by positivity)
  have h2 : 0 ≤ S % 2 ^ 64 := Int.emod_nonneg _ (by positivity)
  have e1 : (2 : Int) ^ 64 = 18446744073709551616 := by norm_num
  have e2 : (2 : Nat) ^ 64 = 18446744073709551616 := by norm_num
  rw [e1] at h1 h2
  rw [e2]
  omega

/-- Both LEB128 decoders produce the unbounded value of the input truncated
mod `2^64`, and the signed one its sign-extended value mod `2^64`. -/
theorem parse_leb128_spec (mem : Nat → Nat) (addr e : Nat) :
    (parse_leb128 64 false mem addr e).1
      = lebValue (lebGroups mem e (e - addr) addr) % 2 ^ 64
    ∧ (parse_leb128 64 true mem addr e).1
      = (lebSigned (lebGroups mem e (e - addr) addr) % 2 ^ 64).toNat
    ∧ (parse_leb128 64 false mem addr e).1 < 2 ^ 64
    ∧ (parse_leb128 64 true mem addr e).1 < 2 ^ 64 := by
  have hcap : (64 - 1) / 7 + 1 = 10 := by norm_num
  have h1 := parseGo_unsigned mem e (e - addr) 10 addr 0 0 (by norm_num)
    (by norm_num) (by norm_num) (by omega)
  have h2 := parseGo_signed mem e (e - addr) 10 addr 0 0 (by norm_num)
    (by norm_num) (by norm_num) (by omega)
  rw [show (0 : Nat) + 2 ^ (0 * 7) * lebValue (lebGroups mem e (e - addr) addr)
      = lebValue (lebGroups mem e (e - addr) addr) from by ring_nf] at h1
  rw [show ((0 : Nat) : Int) + 2 ^ (0 * 7) * lebSigned (lebGroups mem e (e - addr) addr)
      = lebSigned (lebGroups mem e (e - addr) addr) from by push_cast; ring_nf] at h2
  unfold parse_leb128
  rw [hcap]
  refine ⟨h1, h2, ?_, ?_⟩
  · rw [h1]
    exact Nat.mod_lt _ (by positivity)
  · rw [h2]
    exact toNat_emod_lt _

/-- C6: for every byte sequence, both LEB128 decoders produce the unbounded
mathematical value of the encoding truncated to the 64-bit width of the target
type (the loop cap at `(64-1)/7 + 1` groups discards exactly the higher-order
input bits), and the signed decoder produces the value with the final byte's
sign bit (0x40) extended through all remaining high bits, again mod `2^64`;
both results fit the target width. -/
theorem parse_leb128_truncation_and_sign_extension (mem : Nat → Nat) (addr e : Nat) :
    (parse_leb128 64 false mem addr e).1
      = lebValue (lebGroups mem e (e - addr) addr) % 2 ^ 64
    ∧ (parse_leb128 64 true mem addr e).1
      = (lebSigned (lebGroups mem e (e - addr) addr) % 2 ^ 64).toNat
    ∧ (parse_leb128 64 false mem addr e).1 < 2 ^ 64
    ∧ (parse_leb128 64 true mem addr e).1 < 2 ^ 64 :=
  parse_leb128_spec mem addr e

end Debuginfo

namespace Debuginfo

/-! Embedding of `processFDEs` (src/src/debuginfo.cpp, lines 62-82): walk an
`.eh_frame`-style byte range as 4-byte-length-prefixed records, handing only
FDEs (non-zero second field) to the visitor. The visitor is modelled by
returning the list of visited record start addresses, in order. -/

/-- Little-endian read of `n` bytes at `addr`. -/
def readLE (mem : Nat → Nat) (addr : Nat) : Nat → Nat
  | 0 => 0
  | n + 1 => mem addr + 256 * readLE mem (addr + 1) n

/-- `processFDEs(EHFrameAddr, EHFrameSize, f)`: the do-while loop; `fuel` bounds
the walk (the C loop relies on well-formed record lengths to terminate).
Returns the entries passed to the visitor, in order.  A record is
`Length(4) ++ Offset(4) ++ payload`; `Length == 0` terminates, `Offset == 0`
is a CIE and is skipped, the walk continues at `Entry + 4 + Length` while it
differs from the end pointer. -/
def processFDEs (mem : Nat → Nat) (eend : Nat) : Nat → Nat → List Nat
  | 0, _ => []
  | fuel + 1, p =>
    if readLE mem p 4 = 0 then []
    else
      (if readLE mem (p + 4) 4 ≠ 0 then [p] else [])
        ++ (if p + 4 + readLE mem p 4 ≠ eend then
              processFDEs mem eend fuel (p + 4 + readLE mem p 4)
            else [])

/-- The record decomposition of the byte range as the spec describes it: every
record start, CIE or FDE, until a zero length or the end pointer. -/
def cfiRecords (mem : Nat → Nat) (eend : Nat) : Nat → Nat → List Nat
  | 0, _ => []
  | fuel + 1, p =>
    if readLE mem p 4 = 0 then []
    else p :: (if p + 4 + readLE mem p 4 ≠ eend then
                 cfiRecords mem eend fuel (p + 4 + readLE mem p 4)
               else [])

/-- C7: the walker hands the visitor exactly the records whose second 4-byte
field (the CIE back-offset discriminator) is non-zero, in record order. -/
theorem processFDEs_visits_exactly_fdes (mem : Nat → Nat) (eend fuel p : Nat) :
    processFDEs mem eend fuel p
      = (cfiRecords mem eend fuel p).filter (fun q => readLE mem (q + 4) 4 != 0) := by
  induction fuel generalizing p with
  | zero => rfl
  | succ f ih =>
    unfold processFDEs cfiRecords
    by_cases h0 : readLE mem p 4 = 0
    · simp [h0]
    · by_cases hoff : readLE mem (p + 4) 4 = 0
      · by_cases hend : p + 4 + readLE mem p 4 = eend
        · simp [h0, hoff, hend, List.filter_cons]
        · simp [h0, hoff, hend, List.filter_cons, ih]
      · by_cases hend : p + 4 + readLE mem p 4 = eend
        · simp [h0, hoff, hend, List.filter_cons]
        · simp [h0, hoff, hend, List.filter_cons, ih]

end Debuginfo

namespace Debuginfo

/-! Embedding of the symbolication engine (`lookup_pointer`, lines 448-542, and
`jl_getFunctionInfo_impl`, lines 1276-1295). The LLVM `DIContext` is modelled
abstractly as the inlining chain and line-info it reports per address; a
`jl_frame_t` keeps the fields the claims are about. The profiling lock always
succeeds in this single-threaded model. -/

structure DILineInfoM where
  functionName : List Char
  fileName : List Char
  line : Nat
deriving DecidableEq

instance : Inhabited DILineInfoM := ⟨⟨"<invalid>".toList, "<invalid>".toList, 0⟩⟩

structure DIContextM where
  inliningInfo : Nat → List DILineInfoM
  lineInfo : Nat → DILineInfoM

structure FrameM where
  func_name : Option (List Char)
  file_name : Option (List Char)
  line : Int
  fromC : Bool
  inlined : Bool
  ci : Option Nat
deriving DecidableEq

/-- A `calloc`-zeroed `jl_frame_t`. -/
def zeroFrame : FrameM := ⟨none, none, 0, false, false, none⟩

/-- The no-context path of `lookup_pointer` (lines 455-473): demangle the
already-known name, or mark the frame as C, and return that single frame. -/
def lookup_pointer_nocontext (frame0 : FrameM) (demangle : Bool) : List FrameM :=
  if demangle then
    match frame0.func_name with
    | some oldname =>
      [{ frame0 with func_name := some (jl_demangle oldname).1,
                     fromC := !(jl_demangle oldname).2 }]
    | none => [{ frame0 with fromC := true }]
  else [frame0]

/-- The per-frame body of the expansion loop (lines 498-540): inlined frames
inherit `fromC0` and, for managed code, have the function name truncated at the
first `';'` (clearing `ci`); the literal `"<invalid>"` becomes a null name/file;
a null function name forces `fromC`. -/
def buildFrame (base : FrameM) (info : DILineInfoM) (inlinedFrame : Bool)
    (fromC0 : Bool) : FrameM :=
  let fn0 := info.functionName
  let st1 := if inlinedFrame then
      (if fromC0 = false ∧ ';' ∈ fn0 then
        { base with inlined := true, fromC := fromC0, ci := none }
       else { base with inlined := true, fromC := fromC0 })
    else base
  let fn := if inlinedFrame ∧ fromC0 = false then fn0.takeWhile (fun c => c ≠ ';') else fn0
  let st2 := if fn = "<invalid>".toList then { st1 with func_name := none }
             else { st1 with func_name := some fn }
  let st3 := if st2.func_name = none then { st2 with fromC := true } else st2
  let st4 := { st3 with line := (info.line : Int) }
  if info.fileName = "<invalid>".toList then { st4 with file_name := none }
  else { st4 with file_name := some info.fileName }

/-- `lookup_pointer(Section, context, frames, pointer, slide, demangle,
noInline)`: returns the final frame list (the C mutates a heap array and
returns its length). -/
def lookup_pointer (hasSection : Bool) (ctx : Option DIContextM) (frame0 : FrameM)
    (pointer slide : Nat) (demangle noInline : Bool) : List FrameM :=
  match ctx, hasSection with
  | some c, true =>
    let infos := c.inliningInfo (pointer + slide)
    if infos.length = 0 then lookup_pointer_nocontext frame0 demangle
    else
      let n := if noInline then 1 else infos.length
      (List.range n).map (fun i =>
        buildFrame (if i = n - 1 then frame0 else zeroFrame)
          (if noInline then c.lineInfo (pointer + slide) else infos.getD i default)
          (decide (i ≠ n - 1)) frame0.fromC)
  | _, _ => lookup_pointer_nocontext frame0 demangle

theorem buildFrame_line (base : FrameM) (info : DILineInfoM) (inl f0 : Bool) :
    (buildFrame base info inl f0).line = (info.line : Int) := by
  simp only [buildFrame]
  split <;> rfl

theorem buildFrame_file (base : FrameM) (info : DILineInfoM) (inl f0 : Bool) :
    (buildFrame base info inl f0).file_name
      = (if info.fileName = "<invalid>".toList then none else some info.fileName) := by
  simp only [buildFrame]
  split <;> rfl

theorem getD_map_range {α : Type} (f : Nat → α) (n i : Nat) (d : α) (h : i < n) :
    (((List.range n).map f).getD i d) = f i := by
  rw [List.getD_eq_getElem _ _ (by simpa using h)]
  simp

/-- C4: a context reporting `n ≥ 1` frames yields exactly `n` output frames
without inline suppression (each output frame `i` built from reported frame `i`,
innermost first: its line and file come from the `i`-th reported frame), and
exactly 1 frame with suppression. -/
theorem inlining_expansion (c : DIContextM) (frame0 : FrameM) (pointer slide : Nat)
    (demangle : Bool) (n : Nat) (hn : 1 ≤ n)
    (hlen : (c.inliningInfo (pointer + slide)).length = n) :
    (lookup_pointer true (some c) frame0 pointer slide demangle false).length = n
    ∧ (lookup_pointer true (some c) frame0 pointer slide demangle true).length = 1
    ∧ ∀ i, i < n →
        ((lookup_pointer true (some c) frame0 pointer slide demangle false).getD i
            zeroFrame).line
          = (((c.inliningInfo (pointer + slide)).getD i default).line : Int)
        ∧ ((lookup_pointer true (some c) frame0 pointer slide demangle false).getD i
            zeroFrame).file_name
          = (if ((c.inliningInfo (pointer + slide)).getD i default).fileName
                = "<invalid>".toList
             then none
             else some ((c.inliningInfo (pointer + slide)).getD i default).fileName) := by
  have hne : ¬((c.inliningInfo (pointer + slide)).length = 0) := by omega
  refine ⟨?_, ?_, ?_⟩
  · simp only [lookup_pointer, if_neg hne, if_neg (Bool.false_ne_true)]
    simp [hlen]
  · simp only [lookup_pointer, if_neg hne, if_pos rfl]
    simp
  · intro i hi
    simp only [lookup_pointer, if_neg hne, if_neg (Bool.false_ne_true)]
    rw [getD_map_range _ _ _ _ (by omega : i < (c.inliningInfo (pointer + slide)).length)]
    rw [buildFrame_line, buildFrame_file]
    exact ⟨rfl, rfl⟩

theorem inlining_expansion_witness :
    (lookup_pointer true
        (some ⟨fun _ => [⟨"a".toList, "f".toList, 1⟩, ⟨"b".toList, "g".toList, 2⟩,
          ⟨"c".toList, "h".toList, 3⟩], fun _ => ⟨"c".toList, "h".toList, 3⟩⟩)
        zeroFrame 5 0 true false).length = 3
    ∧ (lookup_pointer true
        (some ⟨fun _ => [⟨"a".toList, "f".toList, 1⟩, ⟨"b".toList, "g".toList, 2⟩,
          ⟨"c".toList, "h".toList, 3⟩], fun _ => ⟨"c".toList, "h".toList, 3⟩⟩)
        zeroFrame 5 0 true true).length = 1 := by
  have h := inlining_expansion
    ⟨fun _ => [⟨"a".toList, "f".toList, 1⟩, ⟨"b".toList, "g".toList, 2⟩,
      ⟨"c".toList, "h".toList, 3⟩], fun _ => ⟨"c".toList, "h".toList, 3⟩⟩
    zeroFrame 5 0 true 3 (by norm_num) rfl
  exact ⟨h.1, h.2.1⟩

end Debuginfo

namespace Debuginfo

/-- `jl_getDylibFunctionInfo` (lines 1171-1224), with the outcome of the
dynamic-library introspection (`jl_dylib_DI_for_fptr`) abstracted as an
optional `(section-found, context, slide, isImage)` tuple; `none` covers both a
failed `dladdr` and the skipC-filtered case, where the frame is marked C and
returned alone. -/
def jl_getDylibFunctionInfo (dylib : Option (Bool × Option DIContextM × Nat × Bool))
    (frame0 : FrameM) (pointer : Nat) (noInline : Bool) : List FrameM :=
  match dylib with
  | none => [{ frame0 with fromC := true }]
  | some (hasSection, ctx, slide, isImage) =>
      lookup_pointer hasSection ctx { frame0 with fromC := !isImage } pointer slide
        isImage noInline

/-- `jl_getFunctionInfo_impl(frames_out, pointer, skipC, noInline)`
(lines 1276-1295): one zero-initialized frame with `line = -1` is allocated up
front; a JIT hit (`jl_DI_for_fptr`, abstracted as the optional
`(section-found, context, slide, code-instance)` it yields) resolves through
`lookup_pointer` with demangling on; otherwise the dynamic-library path runs. -/
def jl_getFunctionInfo (jit : Option (Bool × Option DIContextM × Nat × Option Nat))
    (dylib : Option (Bool × Option DIContextM × Nat × Bool))
    (pointer : Nat) (noInline : Bool) : List FrameM :=
  match jit with
  | some (hasSection, ctx, slide, ci) =>
      lookup_pointer hasSection ctx { zeroFrame with line := -1, ci := ci } pointer slide
        true noInline
  | none => jl_getDylibFunctionInfo dylib { zeroFrame with line := -1 } pointer noInline

theorem lookup_pointer_nocontext_length (frame0 : FrameM) (demangle : Bool) :
    (lookup_pointer_nocontext frame0 demangle).length = 1 := by
  unfold lookup_pointer_nocontext
  split
  · split <;> rfl
  · rfl

theorem lookup_pointer_length_pos (hasSection : Bool) (ctx : Option DIContextM)
    (frame0 : FrameM) (pointer slide : Nat) (demangle noInline : Bool) :
    1 ≤ (lookup_pointer hasSection ctx frame0 pointer slide demangle noInline).length := by
  rcases ctx with _ | c
  · cases hasSection <;> simp [lookup_pointer, lookup_pointer_nocontext_length]
  · cases hasSection
    · simp [lookup_pointer, lookup_pointer_nocontext_length]
    · simp only [lookup_pointer]
      by_cases hz : (c.inliningInfo (pointer + slide)).length = 0
      · rw [if_pos hz, lookup_pointer_nocontext_length]
      · rw [if_neg hz]
        simp only [List.length_map, List.length_range]
        split <;> omega

/-- C10: for every address, every lookup outcome and both flags, the public
frame-resolution entry point returns at least one frame. -/
theorem jl_getFunctionInfo_returns_frame
    (jit : Option (Bool × Option DIContextM × Nat × Option Nat))
    (dylib : Option (Bool × Option DIContextM × Nat × Bool))
    (pointer : Nat) (noInline : Bool) :
    1 ≤ (jl_getFunctionInfo jit dylib pointer noInline).length := by
  rcases jit with _ | ⟨hasSection, ctx, slide, ci⟩
  · rcases dylib with _ | ⟨hs2, ctx2, slide2, isImage⟩
    · simp [jl_getFunctionInfo, jl_getDylibFunctionInfo]
    · simp only [jl_getFunctionInfo, jl_getDylibFunctionInfo]
      exact lookup_pointer_length_pos _ _ _ _ _ _ _
  · simp only [jl_getFunctionInfo]
    exact lookup_pointer_length_pos _ _ _ _ _ _ _

end Debuginfo

namespace Debuginfo

/-! Embedding of the lazy-decompression and memoization logic of
`jl_DI_for_fptr` (src/src/debuginfo.cpp, lines 1241-1268), acting on one
`LazyObjectInfo`. The zstd/zlib codec and LLVM's object parser and
`DWARFContext::create` are external collaborators, modelled as oracles
`decomp`, `parse` and `mkCtx`; parsed objects and contexts are abstract `Nat`
tokens. -/

structure LazyObjectInfoM where
  data : List Nat
  uncompressedsize : Nat
  object : Option Nat
  context : Option Nat
deriving DecidableEq

/-- One symbolication lookup into a stored image: decompress on first use
(failure clears the stored bytes), parse and memoize the object (parse failure
also clears the bytes), memoize the debug-info context; returns the new state
and the `(object, context)` pair when available, `none` for the degraded
no-debug-info outcome. -/
def jl_DI_step (decomp : List Nat → Nat → Option (List Nat))
    (parse : List Nat → Option Nat) (mkCtx : Nat → Nat)
    (o : LazyObjectInfoM) : LazyObjectInfoM × Option (Nat × Nat) :=
  let o1 :=
    if o.object = none ∧ o.data ≠ [] then
      let oa :=
        if o.uncompressedsize ≠ 0 then
          match decomp o.data o.uncompressedsize with
          | none => { o with data := [], uncompressedsize := 0 }
          | some un => { o with data := un, uncompressedsize := 0 }
        else o
      if oa.data ≠ [] then
        match parse oa.data with
        | some ob => { oa with object := some ob }
        | none => { oa with data := [] }
      else oa
    else o
  match o1.object with
  | some ob =>
    match o1.context with
    | some c => (o1, some (ob, c))
    | none => ({ o1 with context := some (mkCtx ob) }, some (ob, mkCtx ob))
  | none => (o1, none)

/-- Iterated lookups: state and result after `n + 1` lookups. -/
def jl_DI_stepN (decomp : List Nat → Nat → Option (List Nat))
    (parse : List Nat → Option Nat) (mkCtx : Nat → Nat)
    (o : LazyObjectInfoM) : Nat → LazyObjectInfoM × Option (Nat × Nat)
  | 0 => jl_DI_step decomp parse mkCtx o
  | n + 1 => jl_DI_step decomp parse mkCtx (jl_DI_stepN decomp parse mkCtx o n).1

/-- C8: on first use of a compressed image, a failed decompression discards the
stored bytes and every subsequent lookup returns the degraded no-debug-info
result from the same (unchanged) state; a successful decompression permanently
replaces the compressed bytes and memoizes the parsed object and context, and
every subsequent lookup returns them without re-parsing. -/
theorem decompression_failure_degrades_permanently
    (decomp : List Nat → Nat → Option (List Nat)) (parse : List Nat → Option Nat)
    (mkCtx : Nat → Nat) (o : LazyObjectInfoM)
    (hobj : o.object = none) (hdata : o.data ≠ []) (hcomp : o.uncompressedsize ≠ 0)
    (hctx : o.context = none) :
    (decomp o.data o.uncompressedsize = none →
      (jl_DI_step decomp parse mkCtx o).2 = none
      ∧ (jl_DI_step decomp parse mkCtx o).1
          = { data := [], uncompressedsize := 0, object := none, context := none }
      ∧ ∀ n, jl_DI_stepN decomp parse mkCtx (jl_DI_step decomp parse mkCtx o).1 n
          = ((jl_DI_step decomp parse mkCtx o).1, none))
    ∧ (∀ un ob, decomp o.data o.uncompressedsize = some un → un ≠ [] →
        parse un = some ob →
        jl_DI_step decomp parse mkCtx o
          = ({ data := un, uncompressedsize := 0, object := some ob,
               context := some (mkCtx ob) }, some (ob, mkCtx ob))
        ∧ ∀ n, jl_DI_stepN decomp parse mkCtx
            { data := un, uncompressedsize := 0, object := some ob,
              context := some (mkCtx ob) } n
          = ({ data := un, uncompressedsize := 0, object := some ob,
               context := some (mkCtx ob) }, some (ob, mkCtx ob))) := by
  constructor
  · intro hfail
    have hstep : jl_DI_step decomp parse mkCtx o
        = ({ data := [], uncompressedsize := 0, object := none, context := none },
           none) := by
      unfold jl_DI_step
      rw [if_pos ⟨hobj, hdata⟩, if_pos hcomp, hfail]
      simp [hobj, hctx]
    have hfix : jl_DI_step decomp parse mkCtx
        { data := [], uncompressedsize := 0, object := none, context := none }
        = ({ data := [], uncompressedsize := 0, object := none, context := none },
           none) := by
      unfold jl_DI_step
      simp
    refine ⟨by rw [hstep], by rw [hstep], ?_⟩
    intro n
    induction n with
    | zero =>
      rw [hstep]
      simpa [jl_DI_stepN] using hfix
    | succ m ihm =>
      rw [jl_DI_stepN, ihm]
      rw [hstep]
      exact hfix
  · intro un ob hok hne hparse
    have hstep : jl_DI_step decomp parse mkCtx o
        = ({ data := un, uncompressedsize := 0, object := some ob,
             context := some (mkCtx ob) }, some (ob, mkCtx ob)) := by
      unfold jl_DI_step
      rw [if_pos ⟨hobj, hdata⟩, if_pos hcomp, hok]
      simp [hobj, hctx, hne, hparse]
    have hfix : jl_DI_step decomp parse mkCtx
        { data := un, uncompressedsize := 0, object := some ob,
          context := some (mkCtx ob) }
        = ({ data := un, uncompressedsize := 0, object := some ob,
             context := some (mkCtx ob) }, some (ob, mkCtx ob)) := by
      unfold jl_DI_step
      simp
    refine ⟨hstep, ?_⟩
    intro n
    induction n with
    | zero => simpa [jl_DI_stepN] using hfix
    | succ m ihm =>
      rw [jl_DI_stepN, ihm]
      exact hfix

theorem decompression_failure_degrades_permanently_witness :
    (jl_DI_step (fun _ _ => none) (fun _ => some 1) (fun ob => ob + 10)
        ⟨[9, 9], 4, none, none⟩).2 = none
    ∧ (jl_DI_step (fun _ _ => none) (fun _ => some 1) (fun ob => ob + 10)
        ⟨[9, 9], 4, none, none⟩).1 = ⟨[], 0, none, none⟩
    ∧ jl_DI_step (fun _ _ => some [7]) (fun _ => some 1) (fun ob => ob + 10)
        ⟨[9, 9], 4, none, none⟩ = (⟨[7], 0, some 1, some 11⟩, some (1, 11)) := by
  have h1 := decompression_failure_degrades_permanently (fun _ _ => none)
    (fun _ => some 1) (fun ob => ob + 10) ⟨[9, 9], 4, none, none⟩
    rfl (by decide) (by decide) rfl
  have h2 := decompression_failure_degrades_permanently (fun _ _ => some [7])
    (fun _ => some 1) (fun ob => ob + 10) ⟨[9, 9], 4, none, none⟩
    rfl (by decide) (by decide) rfl
  refine ⟨(h1.1 rfl).1, (h1.1 rfl).2.1, ?_⟩
  exact (h2.2 [7] 1 rfl (by decide) rfl).1

end Debuginfo

namespace Debuginfo

/-! Embedding of the split-debug-info resolution (src/src/debuginfo.cpp):
`calc_gnu_debuglink_crc32` (lines 620-676), `openDebugInfo` (lines 678-704) and
the debug-link candidate walk of `find_object_file` (lines 960-1001, Linux
branch). The filesystem and LLVM's object parser are external collaborators,
modelled as the oracles `fs` and `parseOk`; paths are lists of characters. -/

/-- The Gary S. Brown CRC-32 table from the source, decimal. -/
def g_crc32_tab : List Nat := [
    0, 1996959894, 3993919788, 2567524794, 124634137, 1886057615,
    3915621685, 2657392035, 249268274, 2044508324, 3772115230, 2547177864,
    162941995, 2125561021, 3887607047, 2428444049, 498536548, 1789927666,
    4089016648, 2227061214, 450548861, 1843258603, 4107580753, 2211677639,
    325883990, 1684777152, 4251122042, 2321926636, 335633487, 1661365465,
    4195302755, 2366115317, 997073096, 1281953886, 3579855332, 2724688242,
    1006888145, 1258607687, 3524101629, 2768942443, 901097722, 1119000684,
    3686517206, 2898065728, 853044451, 1172266101, 3705015759, 2882616665,
    651767980, 1373503546, 3369554304, 3218104598, 565507253, 1454621731,
    3485111705, 3099436303, 671266974, 1594198024, 3322730930, 2970347812,
    795835527, 1483230225, 3244367275, 3060149565, 1994146192, 31158534,
    2563907772, 4023717930, 1907459465, 112637215, 2680153253, 3904427059,
    2013776290, 251722036, 2517215374, 3775830040, 2137656763, 141376813,
    2439277719, 3865271297, 1802195444, 476864866, 2238001368, 4066508878,
    1812370925, 453092731, 2181625025, 4111451223, 1706088902, 314042704,
    2344532202, 4240017532, 1658658271, 366619977, 2362670323, 4224994405,
    1303535960, 984961486, 2747007092, 3569037538, 1256170817, 1037604311,
    2765210733, 3554079995, 1131014506, 879679996, 2909243462, 3663771856,
    1141124467, 855842277, 2852801631, 3708648649, 1342533948, 654459306,
    3188396048, 3373015174, 1466479909, 544179635, 3110523913, 3462522015,
    1591671054, 702138776, 2966460450, 3352799412, 1504918807, 783551873,
    3082640443, 3233442989, 3988292384, 2596254646, 62317068, 1957810842,
    3939845945, 2647816111, 81470997, 1943803523, 3814918930, 2489596804,
    225274430, 2053790376, 3826175755, 2466906013, 167816743, 2097651377,
    4027552580, 2265490386, 503444072, 1762050814, 4150417245, 2154129355,
    426522225, 1852507879, 4275313526, 2312317920, 282753626, 1742555852,
    4189708143, 2394877945, 397917763, 1622183637, 3604390888, 2714866558,
    953729732, 1340076626, 3518719985, 2797360999, 1068828381, 1219638859,
    3624741850, 2936675148, 906185462, 1090812512, 3747672003, 2825379669,
    829329135, 1181335161, 3412177804, 3160834842, 628085408, 1382605366,
    3423369109, 3138078467, 570562233, 1426400815, 3317316542, 2998733608,
    733239954, 1555261956, 3268935591, 3050360625, 752459403, 1541320221,
    2607071920, 3965973030, 1969922972, 40735498, 2617837225, 3943577151,
    1913087877, 83908371, 2512341634, 3803740692, 2075208622, 213261112,
    2463272603, 3855990285, 2094854071, 198958881, 2262029012, 4057260610,
    1759359992, 534414190, 2176718541, 4139329115, 1873836001, 414664567,
    2282248934, 4279200368, 1711684554, 285281116, 2405801727, 4167216745,
    1634467795, 376229701, 2685067896, 3608007406, 1308918612, 956543938,
    2808555105, 3495958263, 1231636301, 1047427035, 2932959818, 3654703836,
    1088359270, 936918000, 2847714899, 3736837829, 1202900863, 817233897,
    3183342108, 3401237130, 1404277552, 615818150, 3134207493, 3453421203,
    1423857449, 601450431, 3009837614, 3294710456, 1567103746, 711928724,
    3020668471, 3272380065, 1510334235, 755167117]

/-- `calc_gnu_debuglink_crc32(buf, size)`. -/
def calc_gnu_debuglink_crc32 (data : List Nat) : Nat :=
  (data.foldl
    (fun crc b => g_crc32_tab.getD ((crc ^^^ b) &&& 255) 0 ^^^ (crc >>> 8))
    4294967295) ^^^ 4294967295

/-- `fname.substr(0, sep + 1)` where `sep = fname.rfind('/')` (empty when there
is no slash). -/
def dirOf (fname : List Char) : List Char :=
  (fname.reverse.dropWhile (fun c => c ≠ '/')).reverse

/-- `fname.substr(sep + 1)`: the basename. -/
def baseOf (fname : List Char) : List Char :=
  (fname.reverse.takeWhile (fun c => c ≠ '/')).reverse

/-- `openDebugInfo(debuginfopath, info)`: open the candidate, reject it unless
its CRC-32 equals the debug-link checksum, then parse it (parsing is the
external object library). -/
def openDebugInfo (fs : List Char → Option (List Nat)) (parseOk : List Nat → Bool)
    (path : List Char) (crc : Nat) : Option (List Nat) :=
  match fs path with
  | none => none
  | some contents =>
    if calc_gnu_debuglink_crc32 contents ≠ crc then none
    else if parseOk contents then some contents else none

/-- The debug-link candidate walk of `find_object_file` (lines 966-1000): the
library's own directory (skipped when the debug-link names the library
itself), then the hidden `.debug/` sibling directory, then the system-wide
`/usr/lib/debug/` root; the first accepted candidate wins. Returns the
accepted path and its contents. -/
def find_debuglink (fs : List Char → Option (List Nat)) (parseOk : List Nat → Bool)
    (fname linkname : List Char) (crc : Nat) : Option (List Char × List Nat) :=
  let dir := dirOf fname
  let p1 := dir ++ linkname
  let p2 := dir ++ ".debug/".toList ++ linkname
  let p3 := "/usr/lib/debug/".toList ++ dir ++ linkname
  let r1 := if baseOf fname ≠ linkname then
      (openDebugInfo fs parseOk p1 crc).map (fun c => (p1, c))
    else none
  let r2 := match r1 with
    | some x => some x
    | none => (openDebugInfo fs parseOk p2 crc).map (fun c => (p2, c))
  match r2 with
  | some x => some x
  | none => (openDebugInfo fs parseOk p3 crc).map (fun c => (p3, c))

/-- The candidate locations in the fixed order the claim states. -/
def candidatePaths (fname linkname : List Char) : List (List Char) :=
  [dirOf fname ++ linkname,
   dirOf fname ++ ".debug/".toList ++ linkname,
   "/usr/lib/debug/".toList ++ dirOf fname ++ linkname]

/-- The claim's acceptance rule, written from the spec's words: walk the
candidates in order and accept the first whose CRC-32 over its entire contents
equals the embedded checksum. -/
def firstMatching (fs : List Char → Option (List Nat)) (crc : Nat) :
    List (List Char) → Option (List Char × List Nat)
  | [] => none
  | p :: ps =>
    match fs p with
    | some c => if calc_gnu_debuglink_crc32 c = crc then some (p, c)
                else firstMatching fs crc ps
    | none => firstMatching fs crc ps

end Debuginfo

namespace Debuginfo

/-- C5: under an object parser that accepts the candidate files (parsing is an
external collaborator), a candidate is accepted exactly when its CRC-32 (the
standard table) over its entire contents equals the embedded checksum, and the
candidate locations are tried in the fixed order: directory of the library,
hidden `.debug/` sibling, system-wide `/usr/lib/debug/` root; a mismatching
candidate is rejected and the next tried. -/
theorem debuglink_crc_acceptance (fs : List Char → Option (List Nat))
    (parseOk : List Nat → Bool) (fname linkname : List Char) (crc : Nat)
    (hparse : ∀ c, parseOk c = true) (hbase : baseOf fname ≠ linkname) :
    (∀ path c, openDebugInfo fs parseOk path crc = some c ↔
        fs path = some c ∧ calc_gnu_debuglink_crc32 c = crc)
    ∧ find_debuglink fs parseOk fname linkname crc
        = firstMatching fs crc (candidatePaths fname linkname) := by
  have hopen : ∀ path, openDebugInfo fs parseOk path crc
      = match fs path with
        | some c => if calc_gnu_debuglink_crc32 c = crc then some c else none
        | none => none := by
    intro path
    unfold openDebugInfo
    cases hfs : fs path with
    | none => rfl
    | some c =>
      by_cases hcrc : calc_gnu_debuglink_crc32 c = crc
      · simp [hcrc, hparse c]
      · simp [hcrc]
  constructor
  · intro path c
    rw [hopen]
    cases hfs : fs path with
    | none => simp
    | some c2 =>
      dsimp only
      by_cases hcrc : calc_gnu_debuglink_crc32 c2 = crc
      · rw [if_pos hcrc]
        constructor
        · intro h
          obtain rfl := Option.some.inj h
          exact ⟨rfl, hcrc⟩
        · rintro ⟨h1, _⟩
          exact h1
      · rw [if_neg hcrc]
        constructor
        · intro h
          cases h
        · rintro ⟨h1, h2⟩
          obtain rfl := Option.some.inj h1
          exact absurd h2 hcrc
  · unfold find_debuglink candidatePaths
    dsimp only
    rw [if_pos hbase]
    simp only [hopen, firstMatching]
    cases h1 : fs (dirOf fname ++ linkname) with
    | some c1 =>
      by_cases k1 : calc_gnu_debuglink_crc32 c1 = crc
      · simp [k1]
      · simp only [if_neg k1, Option.map_none']
        cases h2 : fs (dirOf fname ++ ".debug/".toList ++ linkname) with
        | some c2 =>
          by_cases k2 : calc_gnu_debuglink_crc32 c2 = crc
          · simp [k2]
          · simp only [if_neg k2, Option.map_none']
            cases h3 : fs ("/usr/lib/debug/".toList ++ dirOf fname ++ linkname) with
            | some c3 =>
              by_cases k3 : calc_gnu_debuglink_crc32 c3 = crc
              · simp [k3]
              · simp [k3]
            | none => simp
        | none =>
          simp only [Option.map_none']
          cases h3 : fs ("/usr/lib/debug/".toList ++ dirOf fname ++ linkname) with
          | some c3 =>
            by_cases k3 : calc_gnu_debuglink_crc32 c3 = crc
            · simp [k3]
            · simp [k3]
          | none => simp
    | none =>
      simp only [Option.map_none']
      cases h2 : fs (dirOf fname ++ ".debug/".toList ++ linkname) with
      | some c2 =>
        by_cases k2 : calc_gnu_debuglink_crc32 c2 = crc
        · simp [k2]
        · simp only [if_neg k2, Option.map_none']
          cases h3 : fs ("/usr/lib/debug/".toList ++ dirOf fname ++ linkname) with
          | some c3 =>
            by_cases k3 : calc_gnu_debuglink_crc32 c3 = crc
            · simp [k3]
            · simp [k3]
          | none => simp
      | none =>
        simp only [Option.map_none']
        cases h3 : fs ("/usr/lib/debug/".toList ++ dirOf fname ++ linkname) with
        | some c3 =>
          by_cases k3 : calc_gnu_debuglink_crc32 c3 = crc
          · simp [k3]
          · simp [k3]
        | none => simp

theorem debuglink_crc_acceptance_witness :
    find_debuglink
      (fun p => if p = "/lib/foo.so.debug".toList then some [1]
                else if p = "/lib/.debug/foo.so.debug".toList then some []
                else none)
      (fun _ => true) "/lib/foo.so".toList "foo.so.debug".toList 0
      = some ("/lib/.debug/foo.so.debug".toList, []) := by
  have h := debuglink_crc_acceptance
    (fun p => if p = "/lib/foo.so.debug".toList then some [1]
              else if p = "/lib/.debug/foo.so.debug".toList then some []
              else none)
    (fun _ => true) "/lib/foo.so".toList "foo.so.debug".toList 0
    (fun _ => rfl) (by decide)
  rw [h.2]
  decide

end Debuginfo

namespace Debuginfo

/-! Embedding of the FDE (start, size) decoding of `register_eh_frames`
(src/src/debuginfo.cpp, lines 1546-1627) together with `parseCIE`
(lines 1411-1506). Spec-side canonical LEB128 encoders certify what "the
encoded values" of an FDE are. -/

/-- Canonical unsigned LEB128 encoding (fuel-bounded; 9 units of fuel cover all
values below `2^70`). -/
def ulebEncF : Nat → Nat → List Nat
  | 0, v => [v]
  | fuel + 1, v => if v < 128 then [v] else (v % 128 + 128) :: ulebEncF fuel (v / 128)

def ulebEnc (v : Nat) : List Nat := ulebEncF 9 v

/-- Canonical signed LEB128 encoding (fuel-bounded; 9 units of fuel cover all
values in `[-2^69, 2^69)`). -/
def slebEncF : Nat → Int → List Nat
  | 0, v => [(v % 128).toNat]
  | fuel + 1, v =>
    if (v / 128 = 0 ∧ (v % 128).toNat < 64) ∨ (v / 128 = -1 ∧ 64 ≤ (v % 128).toNat) then
      [(v % 128).toNat]
    else ((v % 128).toNat + 128) :: slebEncF fuel (v / 128)

def slebEnc (v : Int) : List Nat := slebEncF 9 v

example : ulebEnc 300 = [172, 2] := by decide
example : slebEnc (-100) = [156, 127] := by decide
example : slebEnc 100 = [228, 0] := by decide
example : slebEnc 63 = [63] := by decide
example : slebEnc (-64) = [64] := by decide

/-- A well-formed LEB128 byte list: every byte but the last has the
continuation bit set, the last has it clear. -/
def wfLeb (L : List Nat) : Prop :=
  (∀ j, j + 1 < L.length → L.getD j 0 &&& 128 ≠ 0)
  ∧ L.getD (L.length - 1) 0 &&& 128 = 0

theorem mask_facts : ∀ b, b < 128 →
    b &&& 127 = b ∧ b &&& 128 = 0 ∧ (b + 128) &&& 127 = b ∧ (b + 128) &&& 128 = 128 := by
  decide

theorem sign_clear : ∀ b, b < 64 → b &&& 64 = 0 := by decide

theorem sign_set : ∀ b, 64 ≤ b → b < 128 → b &&& 64 ≠ 0 := by decide

theorem ulebEncF_spec : ∀ fuel v, v < 128 ^ (fuel + 1) →
    lebValue (ulebEncF fuel v) = v ∧ wfLeb (ulebEncF fuel v)
    ∧ (ulebEncF fuel v).length ≤ fuel + 1 ∧ ulebEncF fuel v ≠ [] := by
  intro fuel
  induction fuel with
  | zero =>
    intro v hv
    have hv128 : v < 128 := by
      calc v < 128 ^ 1 := hv
        _ = 128 := by norm_num
    obtain ⟨h1, h2, _, _⟩ := mask_facts v hv128
    refine ⟨?_, ⟨?_, ?_⟩, ?_, ?_⟩ <;> simp [ulebEncF, lebValue, wfLeb, h1, h2]
  | succ f ih =>
    intro v hv
    by_cases hv128 : v < 128
    · obtain ⟨h1, h2, _, _⟩ := mask_facts v hv128
      rw [ulebEncF, if_pos hv128]
      refine ⟨?_, ⟨?_, ?_⟩, ?_, ?_⟩ <;> simp [lebValue, wfLeb, h1, h2]
    · rw [ulebEncF, if_neg hv128]
      have hr : v % 128 < 128 := Nat.mod_lt _ (by norm_num)
      obtain ⟨_, _, h3, h4⟩ := mask_facts (v % 128) hr
      have hd : v / 128 < 128 ^ (f + 1) := by
        rw [Nat.div_lt_iff_lt_mul (by norm_num : (0:Nat) < 128)]
        calc v < 128 ^ (f + 1 + 1) := hv
          _ = 128 ^ (f + 1) * 128 := by rw [pow_succ]
      obtain ⟨ihv, ⟨ihw1, ihw2⟩, ihl, ihne⟩ := ih (v / 128) hd
      refine ⟨?_, ⟨?_, ?_⟩, ?_, ?_⟩
      · simp only [lebValue, h3, ihv]
        omega
      · intro j hj
        cases j with
        | zero => simp [h4]
        | succ j2 =>
          simp only [List.length_cons] at hj
          simp only [List.getD_cons_succ]
          exact ihw1 j2 (by omega)
      · have hlp : (ulebEncF f (v / 128)).length
            = ((ulebEncF f (v / 128)).length - 1) + 1 := by
          cases hne3 : ulebEncF f (v / 128) with
          | nil => exact absurd hne3 ihne
          | cons x xs => simp
        simp only [List.length_cons, Nat.add_sub_cancel]
        rw [hlp, List.getD_cons_succ]
        exact ihw2
      · simp only [List.length_cons]
        omega
      · simp

end Debuginfo

namespace Debuginfo

theorem sleb_single_spec (v : Int) (hlo : -64 ≤ v) (hhi : v < 64) :
    lebSigned [(v % 128).toNat] = v ∧ wfLeb [(v % 128).toNat] := by
  have hbn : 0 ≤ v % 128 := Int.emod_nonneg v (by norm_num)
  have hb : ((v % 128).toNat : Int) = v % 128 := Int.toNat_of_nonneg hbn
  have hb128 : (v % 128).toNat < 128 := by omega
  obtain ⟨hm1, hm2, _, _⟩ := mask_facts _ hb128
  constructor
  · rw [lebSigned_single, hm1]
    by_cases hneg : 0 ≤ v
    · have hmod : v % 128 = v := by omega
      have hlt : (v % 128).toNat < 64 := by omega
      rw [if_neg (by simpa using sign_clear _ hlt)]
      omega
    · have hmod : v % 128 = v + 128 := by omega
      have hge : 64 ≤ (v % 128).toNat := by omega
      rw [if_pos (sign_set _ hge hb128)]
      push_cast
      omega
  · exact ⟨fun j hj => by simp at hj, by simpa using hm2⟩

theorem slebEncF_spec : ∀ fuel (v : Int), -(64 * 128 ^ fuel) ≤ v → v < 64 * 128 ^ fuel →
    lebSigned (slebEncF fuel v) = v ∧ wfLeb (slebEncF fuel v)
    ∧ (slebEncF fuel v).length ≤ fuel + 1 ∧ slebEncF fuel v ≠ [] := by
  intro fuel
  induction fuel with
  | zero =>
    intro v hlo hhi
    norm_num at hlo hhi
    obtain ⟨h1, h2⟩ := sleb_single_spec v hlo hhi
    exact ⟨h1, h2, by simp [slebEncF], by simp [slebEncF]⟩
  | succ f ih =>
    intro v hlo hhi
    by_cases hstop : (v / 128 = 0 ∧ (v % 128).toNat < 64)
        ∨ (v / 128 = -1 ∧ 64 ≤ (v % 128).toNat)
    · rw [slebEncF, if_pos hstop]
      have hrange : -64 ≤ v ∧ v < 64 := by
        rcases hstop with ⟨hq, hb⟩ | ⟨hq, hb⟩ <;> omega
      obtain ⟨h1, h2⟩ := sleb_single_spec v hrange.1 hrange.2
      exact ⟨h1, h2, by simp, by simp⟩
    · rw [slebEncF, if_neg hstop]
      have hbn : 0 ≤ v % 128 := Int.emod_nonneg v (by norm_num)
      have hb128 : (v % 128).toNat < 128 := by omega
      obtain ⟨_, _, hm3, hm4⟩ := mask_facts _ hb128
      have hposf : (0 : Int) < 64 * 128 ^ f := by positivity
      have hsplit : (64 * 128 ^ (f + 1) : Int) = (64 * 128 ^ f) * 128 := by
        rw [pow_succ]
        ring
      have hdlo : -(64 * 128 ^ f) ≤ v / 128 := by
        have h1 : (-(64 * 128 ^ (f + 1)) : Int) / 128 ≤ v / 128 :=
          Int.ediv_le_ediv (by norm_num) hlo
        have h2 : (-(64 * 128 ^ (f + 1)) : Int) / 128 = -(64 * 128 ^ f) := by
          rw [hsplit, ← neg_mul, Int.mul_ediv_cancel _ (by norm_num)]
        omega
      have hdhi : v / 128 < 64 * 128 ^ f := by
        have h1 : v / 128 ≤ (64 * 128 ^ (f + 1) - 1) / 128 :=
          Int.ediv_le_ediv (by norm_num) (by omega)
        have h2 : (64 * 128 ^ (f + 1) - 1 : Int) / 128 < 64 * 128 ^ f := by
          rw [hsplit]
          rw [show ((64 * 128 ^ f) * 128 - 1 : Int)
              = 127 + 128 * (64 * 128 ^ f - 1) from by ring]
          rw [Int.add_mul_ediv_left _ _ (by norm_num : (128:Int) ≠ 0)]
          norm_num
        omega
      obtain ⟨ihv, ⟨ihw1, ihw2⟩, ihl, ihne⟩ := ih (v / 128) hdlo hdhi
      refine ⟨?_, ⟨?_, ?_⟩, ?_, ?_⟩
      · rw [lebSigned_cons _ _ ihne, hm3, ihv]
        have : ((v % 128).toNat : Int) = v % 128 := Int.toNat_of_nonneg hbn
        rw [this]
        omega
      · intro j hj
        cases j with
        | zero => simp [hm4]
        | succ j2 =>
          simp only [List.length_cons] at hj
          simp only [List.getD_cons_succ]
          exact ihw1 j2 (by omega)
      · have hlp : (slebEncF f (v / 128)).length
            = ((slebEncF f (v / 128)).length - 1) + 1 := by
          cases hne3 : slebEncF f (v / 128) with
          | nil => exact absurd hne3 ihne
          | cons x xs => simp
        simp only [List.length_cons, Nat.add_sub_cancel]
        rw [hlp, List.getD_cons_succ]
        exact ihw2
      · simp only [List.length_cons]
        omega
      · simp

end Debuginfo

namespace Debuginfo

/-- Little-endian fixed-width encoder (`n` bytes). -/
def encU : Nat → Nat → List Nat
  | 0, _ => []
  | n + 1, v => v % 256 :: encU n (v / 256)

/-- Little-endian value of a byte list. -/
def readList : List Nat → Nat
  | [] => 0
  | b :: L => b + 256 * readList L

theorem mod_mul_split (v b c : Nat) (hb : 0 < b) (hc : 0 < c) :
    v % (b * c) = v % b + b * (v / b % c) := by
  have h1 : v = v % b + b * (v / b % c) + b * c * (v / b / c) := by
    conv_lhs => rw [← Nat.mod_add_div v b, ← Nat.mod_add_div (v / b) c]
    ring
  conv_lhs => rw [h1]
  rw [Nat.add_mul_mod_self_left]
  apply Nat.mod_eq_of_lt
  have hx : v % b < b := Nat.mod_lt _ hb
  have hy : v / b % c < c := Nat.mod_lt _ hc
  calc v % b + b * (v / b % c) < b + b * (v / b % c) := by omega
    _ = b * (1 + v / b % c) := by ring
    _ ≤ b * c := Nat.mul_le_mul_left _ (by omega)

theorem readList_encU : ∀ n v, readList (encU n v) = v % 256 ^ n
    ∧ (encU n v).length = n := by
  intro n
  induction n with
  | zero => intro v; simp [encU, readList, Nat.mod_one]
  | succ m ihm =>
    intro v
    obtain ⟨ih1, ih2⟩ := ihm (v / 256)
    rw [encU]
    refine ⟨?_, by simp [ih2]⟩
    simp only [readList, ih1]
    rw [pow_succ, mul_comm ((256:Nat) ^ m) 256,
      mod_mul_split v 256 (256 ^ m) (by norm_num) (by positivity)]

theorem readLE_of_layout (mem : Nat → Nat) (base : Nat) (L : List Nat)
    (hlay : ∀ j, j < L.length → mem (base + j) = L.getD j 0) :
    ∀ n off, off + n ≤ L.length →
      readLE mem (base + off) n = readList ((L.drop off).take n) := by
  intro n
  induction n with
  | zero => intro off _; simp [readLE, readList]
  | succ m ihm =>
    intro off hoff
    rw [readLE]
    have h1 : mem (base + off) = L.getD off 0 := hlay off (by omega)
    have h2 : base + off + 1 = base + (off + 1) := by omega
    rw [h1, h2, ihm (off + 1) (by omega)]
    have hlt : off < L.length := by omega
    have hd : L.drop off = L.getD off 0 :: L.drop (off + 1) := by
      rw [List.getD_eq_getElem _ _ hlt]
      exact List.drop_eq_getElem_cons hlt
    rw [hd, List.take_succ_cons, readList]

theorem lebGroups_of_wf (mem : Nat → Nat) (e : Nat) :
    ∀ (L : List Nat) fuel addr,
      (∀ j, j < L.length → mem (addr + j) = L.getD j 0) →
      wfLeb L → L ≠ [] → L.length ≤ fuel + 1 → addr + L.length ≤ e →
      lebGroups mem e fuel addr = L := by
  intro L
  induction L with
  | nil => intro fuel addr _ _ hne; exact absurd rfl hne
  | cons a L2 ihL =>
    intro fuel addr hlay hwf _ hlen hrange
    have ha : mem addr = a := by simpa using hlay 0 (by simp)
    cases hL2 : L2 with
    | nil =>
      have hstop : mem addr &&& 128 = 0 ∨ e ≤ addr + 1 := by
        left
        rw [ha]
        have := hwf.2
        simp only [hL2] at this ⊢
        simpa using this
      rw [lebGroups_stop mem e fuel addr hstop, ha]
    | cons b L3 =>
      have hcont : mem addr &&& 128 ≠ 0 := by
        rw [ha]
        exact hwf.1 0 (by simp [hL2])
      have hlen2 : L2.length = L3.length + 1 := by rw [hL2]; rfl
      have he2 : addr + 1 < e := by
        simp only [List.length_cons] at hrange
        omega
      cases fuel with
      | zero =>
        simp only [List.length_cons] at hlen
        omega
      | succ f =>
        rw [lebGroups, if_neg (not_or.mpr ⟨hcont, by omega⟩), ha]
        congr 1
        rw [← hL2]
        apply ihL f (addr + 1)
        · intro j hj
          have h := hlay (j + 1) (by simp; omega)
          rw [show addr + (j + 1) = addr + 1 + j from by omega] at h
          simpa using h
        · constructor
          · intro j hj
            have := hwf.1 (j + 1) (by simp; omega)
            simpa using this
          · have := hwf.2
            simp only [List.length_cons, Nat.add_sub_cancel] at this
            rw [show L2.length = (L2.length - 1) + 1 from by omega] at this
            simpa using this
        · rw [hL2]; simp
        · simp only [List.length_cons] at hlen; omega
        · simp only [List.length_cons] at hrange; omega

theorem parseGo_pos (s : Bool) (mem : Nat → Nat) (e : Nat) :
    ∀ (L : List Nat) pfuel i acc addr,
      (∀ j, j < L.length → mem (addr + j) = L.getD j 0) →
      wfLeb L → L ≠ [] → L.length ≤ pfuel → addr + L.length ≤ e →
      (parseGo 64 s mem e pfuel addr i acc).2 = addr + L.length := by
  intro L
  induction L with
  | nil => intro pfuel i acc addr _ _ hne; exact absurd rfl hne
  | cons a L2 ihL =>
    intro pfuel i acc addr hlay hwf _ hlen hrange
    have ha : mem addr = a := by simpa using hlay 0 (by simp)
    cases pfuel with
    | zero => simp at hlen
    | succ p =>
      cases hL2 : L2 with
      | nil =>
        have hstop : mem addr &&& 128 = 0 ∨ e ≤ addr + 1 := by
          left
          rw [ha]
          have := hwf.2
          simp only [hL2] at this ⊢
          simpa using this
        simp [parseGo, if_pos hstop, hL2]
      | cons b L3 =>
        have hcont : mem addr &&& 128 ≠ 0 := by
          rw [ha]
          exact hwf.1 0 (by simp [hL2])
        have hlen2 : L2.length = L3.length + 1 := by rw [hL2]; rfl
        have he2 : addr + 1 < e := by
          have h := hrange
          rw [hL2] at h
          simp only [List.length_cons] at h
          omega
        have hns : ¬(mem addr &&& 128 = 0 ∨ e ≤ addr + 1) := by
          rintro (h1 | h2)
          · exact hcont h1
          · omega
        simp only [parseGo, if_neg hns]
        rw [ihL p (i + 1) _ (addr + 1)]
        · simp only [List.length_cons]
          omega
        · intro j hj
          have h := hlay (j + 1) (by simp; omega)
          rw [show addr + (j + 1) = addr + 1 + j from by omega] at h
          simpa using h
        · constructor
          · intro j hj
            have := hwf.1 (j + 1) (by simp; omega)
            simpa using this
          · have := hwf.2
            simp only [List.length_cons, Nat.add_sub_cancel] at this
            rw [show L2.length = (L2.length - 1) + 1 from by omega] at this
            simpa using this
        · rw [hL2]; simp
        · have h := hlen
          simp only [List.length_cons] at h
          omega
        · have h := hrange
          simp only [List.length_cons] at h
          omega

/-- A `parse_leb128` call over memory holding a well-formed LEB sequence
returns its (truncated) value and stops exactly after it. -/
theorem parse_of_wfLeb (s : Bool) (mem : Nat → Nat) (e addr : Nat) (L : List Nat)
    (hlay : ∀ j, j < L.length → mem (addr + j) = L.getD j 0)
    (hwf : wfLeb L) (hne : L ≠ []) (hlen : L.length ≤ 10)
    (hrange : addr + L.length ≤ e) :
    parse_leb128 64 s mem addr e
      = ((if s = true then (lebSigned L % 2 ^ 64).toNat else lebValue L % 2 ^ 64),
         addr + L.length) := by
  have hgr : lebGroups mem e (e - addr) addr = L :=
    lebGroups_of_wf mem e L (e - addr) addr hlay hwf hne (by omega) hrange
  have hval := parse_leb128_spec mem addr e
  have hpos : (parse_leb128 64 s mem addr e).2 = addr + L.length := by
    unfold parse_leb128
    rw [show (64 - 1) / 7 + 1 = 10 from by norm_num]
    exact parseGo_pos s mem e L 10 0 0 addr hlay hwf hne hlen hrange
  cases s with
  | false =>
    refine Prod.ext ?_ hpos
    rw [hval.1, hgr]
    rfl
  | true =>
    refine Prod.ext ?_ hpos
    rw [hval.2.1, hgr]
    rfl

end Debuginfo

namespace Debuginfo

/-- Length of the NUL-terminated string at `pos` (`strlen`), searching at most
`fuel` bytes. -/
def strlenWithin (mem : Nat → Nat) : Nat → Nat → Option Nat
  | 0, _ => none
  | fuel + 1, pos =>
    if mem pos = 0 then some 0 else (strlenWithin mem fuel (pos + 1)).map (· + 1)

/-- The augmentation-character loop of `parseCIE` (lines 1450-1504): walks the
augmentation characters with the data pointer `p`; `'z'` skips the
augmentation-length LEB, `'L'` one byte, `'P'` the personality datum by its
encoding (an invalid personality encoding is the fatal assertion, `none`);
`'R'` returns the FDE address encoding. Running out of fuel models the
source's unbounded walk never finding `'R'`. -/
def augLoop (mem : Nat → Nat) (cie_end : Nat) : Nat → Nat → Nat → Option Nat
  | 0, _, _ => none
  | fuel + 1, augp, p =>
    if mem augp = 122 then
      augLoop mem cie_end fuel (augp + 1) (consume_leb128 mem p cie_end)
    else if mem augp = 76 then
      augLoop mem cie_end fuel (augp + 1) (p + 1)
    else if mem augp = 82 then
      some (mem p)
    else if mem augp = 80 then
      (if mem p &&& 15 = 1 ∨ mem p &&& 15 = 9 then
        augLoop mem cie_end fuel (augp + 1) (consume_leb128 mem (p + 1) cie_end)
       else if mem p &&& 15 = 2 ∨ mem p &&& 15 = 10 then
        augLoop mem cie_end fuel (augp + 1) (p + 1 + 2)
       else if mem p &&& 15 = 3 ∨ mem p &&& 15 = 11 then
        augLoop mem cie_end fuel (augp + 1) (p + 1 + 4)
       else if mem p &&& 15 = 4 ∨ mem p &&& 15 = 12 then
        augLoop mem cie_end fuel (augp + 1) (p + 1 + 8)
       else if mem p &&& 15 = 8 then
        augLoop mem cie_end fuel (augp + 1) (p + 1 + 8)
       else if mem p = 0 ∨ mem p = 255 then
        augLoop mem cie_end fuel (augp + 1) (p + 1 + 8)
       else none)
    else augLoop mem cie_end fuel (augp + 1) p

/-- `parseCIE(Addr, End)` (lines 1411-1506): checks the CIE id and version,
skips the augmentation string, alignment factors and return-address register,
then walks the augmentation data for the `'R'` FDE address encoding. The
source's defensive assertions are modelled as `none`. -/
def parseCIE (mem : Nat → Nat) (addr e : Nat) : Option Nat :=
  let cie_size := readLE mem addr 4
  let cie_addr := addr + 4
  let cie_end := cie_addr + cie_size
  if ¬(cie_end ≤ e) then none
  else if readLE mem cie_addr 4 ≠ 0 then none
  else if ¬(mem (cie_addr + 4) = 1 ∨ mem (cie_addr + 4) = 3) then none
  else
    match strlenWithin mem cie_size (cie_addr + 5) with
    | none => none
    | some auglen =>
      let p2 := cie_addr + 5 + auglen + 1 + 1
      let p3 := consume_leb128 mem p2 cie_end
      let p4 := if mem (cie_addr + 4) = 1 then p3 + 1 else consume_leb128 mem p3 cie_end
      augLoop mem cie_end (auglen + 1) (cie_addr + 5) p4

/-- The 64-bit pattern of an `n`-bit two's-complement value (`r < 2^n`). -/
def sextPat (n r : Nat) : Nat := if r < 2 ^ (n - 1) then r else r + (2 ^ 64 - 2 ^ n)

/-- The FDE `(start, size)` decoding of the `register_eh_frames` visitor
(lines 1546-1627), for one FDE at `entry` under address encoding `enc`: the
two fields follow the 4-byte length and 4-byte CIE offset; `baseptr` for
pc-relative values is the address of the start field (`entry + 8`).
Unsupported encodings and failed size assertions are `none`. -/
def decodeFDE (mem : Nat → Nat) (entry : Nat) (enc : Nat) : Option (Nat × Nat) :=
  let fde_size := readLE mem entry 4
  let fde_end := entry + 4 + fde_size
  let ep := entry + 8
  if enc = 0 ∨ enc = 255 then
    if 2 * 8 + 4 ≤ fde_size then
      some (readLE mem ep 8 % 2 ^ 64, readLE mem (ep + 8) 8 % 2 ^ 64)
    else none
  else if enc &&& 240 ≠ 16 then none
  else if enc &&& 15 = 1 then
    (let r1 := parse_leb128 64 false mem ep fde_end
     let r2 := parse_leb128 64 false mem r1.2 fde_end
     some ((ep + r1.1) % 2 ^ 64, r2.1))
  else if enc &&& 15 = 2 then
    (if 2 * 2 + 4 ≤ fde_size then
      some ((ep + readLE mem ep 2) % 2 ^ 64, readLE mem (ep + 2) 2)
     else none)
  else if enc &&& 15 = 3 then
    (if 2 * 4 + 4 ≤ fde_size then
      some ((ep + readLE mem ep 4) % 2 ^ 64, readLE mem (ep + 4) 4)
     else none)
  else if enc &&& 15 = 4 then
    (if 2 * 8 + 4 ≤ fde_size then
      some ((ep + readLE mem ep 8) % 2 ^ 64, readLE mem (ep + 8) 8 % 2 ^ 64)
     else none)
  else if enc &&& 15 = 8 then
    (if 2 * 8 + 4 ≤ fde_size then
      some ((ep + readLE mem ep 8) % 2 ^ 64, readLE mem (ep + 8) 8 % 2 ^ 64)
     else none)
  else if enc &&& 15 = 9 then
    (let r1 := parse_leb128 64 true mem ep fde_end
     let r2 := parse_leb128 64 true mem r1.2 fde_end
     some ((ep + r1.1) % 2 ^ 64, r2.1))
  else if enc &&& 15 = 10 then
    (if 2 * 2 + 4 ≤ fde_size then
      some ((ep + sextPat 16 (readLE mem ep 2)) % 2 ^ 64, sextPat 16 (readLE mem (ep + 2) 2))
     else none)
  else if enc &&& 15 = 11 then
    (if 2 * 4 + 4 ≤ fde_size then
      some ((ep + sextPat 32 (readLE mem ep 4)) % 2 ^ 64, sextPat 32 (readLE mem (ep + 4) 4))
     else none)
  else if enc &&& 15 = 12 then
    (if 2 * 8 + 4 ≤ fde_size then
      some ((ep + readLE mem ep 8) % 2 ^ 64, readLE mem (ep + 8) 8 % 2 ^ 64)
     else none)
  else none

/-- The supported encodings named by the claim: absolute pointer, and
pc-relative combined with uleb128, sleb128, and 2/4/8-byte unsigned or signed
data (0x18 is the pointer-sized signed form). -/
def supportedEnc (enc : Nat) : Prop :=
  enc = 0 ∨ enc = 17 ∨ enc = 25 ∨ enc = 18 ∨ enc = 19 ∨ enc = 20 ∨ enc = 24
    ∨ enc = 26 ∨ enc = 27 ∨ enc = 28

/-- Byte encoding of the FDE's (start, size) fields under `enc`: for
pc-relative encodings `d` is the signed delta to `baseptr`, for the absolute
encoding the start itself; `z` is the size. `none` when a value does not fit
the encoding. -/
def encodePC (enc : Nat) (d z : Int) : Option (List Nat) :=
  if enc = 0 then
    (if 0 ≤ d ∧ d < 2 ^ 64 ∧ 0 ≤ z ∧ z < 2 ^ 64 then
      some (encU 8 d.toNat ++ encU 8 z.toNat) else none)
  else if enc = 17 then
    (if 0 ≤ d ∧ d < 2 ^ 64 ∧ 0 ≤ z ∧ z < 2 ^ 64 then
      some (ulebEnc d.toNat ++ ulebEnc z.toNat) else none)
  else if enc = 25 then
    (if -(2 ^ 63) ≤ d ∧ d < 2 ^ 63 ∧ 0 ≤ z ∧ z < 2 ^ 63 then
      some (slebEnc d ++ slebEnc z) else none)
  else if enc = 18 then
    (if 0 ≤ d ∧ d < 2 ^ 16 ∧ 0 ≤ z ∧ z < 2 ^ 16 then
      some (encU 2 d.toNat ++ encU 2 z.toNat) else none)
  else if enc = 19 then
    (if 0 ≤ d ∧ d < 2 ^ 32 ∧ 0 ≤ z ∧ z < 2 ^ 32 then
      some (encU 4 d.toNat ++ encU 4 z.toNat) else none)
  else if enc = 20 then
    (if 0 ≤ d ∧ d < 2 ^ 64 ∧ 0 ≤ z ∧ z < 2 ^ 64 then
      some (encU 8 d.toNat ++ encU 8 z.toNat) else none)
  else if enc = 24 then
    (if -(2 ^ 63) ≤ d ∧ d < 2 ^ 63 ∧ 0 ≤ z ∧ z < 2 ^ 63 then
      some (encU 8 (d % 2 ^ 64).toNat ++ encU 8 (z % 2 ^ 64).toNat) else none)
  else if enc = 26 then
    (if -(2 ^ 15) ≤ d ∧ d < 2 ^ 15 ∧ 0 ≤ z ∧ z < 2 ^ 15 then
      some (encU 2 (d % 2 ^ 16).toNat ++ encU 2 (z % 2 ^ 16).toNat) else none)
  else if enc = 27 then
    (if -(2 ^ 31) ≤ d ∧ d < 2 ^ 31 ∧ 0 ≤ z ∧ z < 2 ^ 31 then
      some (encU 4 (d % 2 ^ 32).toNat ++ encU 4 (z % 2 ^ 32).toNat) else none)
  else if enc = 28 then
    (if -(2 ^ 63) ≤ d ∧ d < 2 ^ 63 ∧ 0 ≤ z ∧ z < 2 ^ 63 then
      some (encU 8 (d % 2 ^ 64).toNat ++ encU 8 (z % 2 ^ 64).toNat) else none)
  else none

end Debuginfo

namespace Debuginfo

theorem pow256 (k : Nat) : (256 : Nat) ^ k = 2 ^ (8 * k) := by
  rw [show (256 : Nat) = 2 ^ 8 from by norm_num, ← pow_mul]

/-- Reading the two fixed-width fields of an FDE laid out as
`encU k p1 ++ encU k p2`. -/
theorem read_two_fields (mem : Nat → Nat) (base k p1 p2 : Nat)
    (hlay : ∀ j, j < (encU k p1 ++ encU k p2).length →
      mem (base + j) = (encU k p1 ++ encU k p2).getD j 0)
    (h1 : p1 < 2 ^ (8 * k)) (h2 : p2 < 2 ^ (8 * k)) :
    readLE mem base k = p1 ∧ readLE mem (base + k) k = p2 := by
  have hL1 := readList_encU k p1
  have hL2 := readList_encU k p2
  have hlen : (encU k p1 ++ encU k p2).length = k + k := by
    rw [List.length_append, hL1.2, hL2.2]
  have hr1 : readLE mem (base + 0) k = readList (((encU k p1 ++ encU k p2).drop 0).take k) :=
    readLE_of_layout mem base _ hlay k 0 (by omega)
  have hr2 : readLE mem (base + k) k = readList (((encU k p1 ++ encU k p2).drop k).take k) :=
    readLE_of_layout mem base _ hlay k k (by omega)
  have hd0 : ((encU k p1 ++ encU k p2).drop 0).take k = encU k p1 := by
    rw [List.drop_zero]
    exact List.take_left' hL1.2
  have hdk : ((encU k p1 ++ encU k p2).drop k).take k = encU k p2 := by
    rw [List.drop_left' hL1.2]
    exact List.take_of_length_le (le_of_eq hL2.2)
  constructor
  · rw [hd0, hL1.1, pow256 k] at hr1
    have hx : readLE mem base k = p1 % 2 ^ (8 * k) := by simpa using hr1
    rw [hx]
    exact Nat.mod_eq_of_lt h1
  · rw [hr2, hdk, hL2.1, pow256]
    exact Nat.mod_eq_of_lt h2

/-- The pc-relative start computation: adding the 64-bit pattern of `d` to the
base pointer mod `2^64` is adding `d` itself when the sum is representable. -/
theorem pcrel_add (ep P : Nat) (d : Int) (hP : (P : Int) = d % 2 ^ 64)
    (h0 : 0 ≤ (ep : Int) + d) (h1 : (ep : Int) + d < 2 ^ 64) :
    (ep + P) % 2 ^ 64 = ((ep : Int) + d).toNat := by
  have e1 : (2 : Int) ^ 64 = 18446744073709551616 := by norm_num
  have e2 : (2 : Nat) ^ 64 = 18446744073709551616 := by norm_num
  rw [e1] at hP h1
  rw [e2]
  omega

theorem size_val (Q : Nat) (z : Int) (hQ : (Q : Int) = z % 2 ^ 64)
    (h0 : 0 ≤ z) (h1 : z < 2 ^ 64) : Q = z.toNat := by
  have e1 : (2 : Int) ^ 64 = 18446744073709551616 := by norm_num
  rw [e1] at hQ h1
  omega

theorem sextPat_16 (d : Int) (hlo : -(2 ^ 15) ≤ d) (hhi : d < 2 ^ 15) :
    ((sextPat 16 (d % 2 ^ 16).toNat : Nat) : Int) = d % 2 ^ 64 := by
  unfold sextPat
  split <;> push_cast <;> omega

theorem sextPat_32 (d : Int) (hlo : -(2 ^ 31) ≤ d) (hhi : d < 2 ^ 31) :
    ((sextPat 32 (d % 2 ^ 32).toNat : Nat) : Int) = d % 2 ^ 64 := by
  unfold sextPat
  split <;> push_cast <;> omega

end Debuginfo

namespace Debuginfo

theorem layout_split (mem : Nat → Nat) (base : Nat) (L1 L2 : List Nat)
    (hlay : ∀ j, j < (L1 ++ L2).length → mem (base + j) = (L1 ++ L2).getD j 0) :
    (∀ j, j < L1.length → mem (base + j) = L1.getD j 0)
    ∧ (∀ j, j < L2.length → mem (base + L1.length + j) = L2.getD j 0) := by
  have hlen : (L1 ++ L2).length = L1.length + L2.length := by simp
  constructor
  · intro j hj
    rw [hlay j (by omega)]
    exact List.getD_append L1 L2 0 j hj
  · intro j hj
    have h2 : base + L1.length + j = base + (L1.length + j) := by omega
    rw [h2, hlay (L1.length + j) (by omega)]
    rw [List.getD_append_right L1 L2 0 (L1.length + j) (by omega)]
    congr 1
    omega

theorem emod_pow_toNat (n : Nat) (d : Int) : ((d % 2 ^ n).toNat : Int) = d % 2 ^ n :=
  Int.toNat_of_nonneg (Int.emod_nonneg d (by positivity))

theorem emod_pow_toNat_lt (n : Nat) (d : Int) : (d % 2 ^ n).toNat < 2 ^ n := by
  have hpos : (0 : Int) < 2 ^ n := by positivity
  have h := Int.emod_lt_of_pos d hpos
  have h2 := Int.emod_nonneg d (ne_of_gt hpos)
  zify
  rw [Int.toNat_of_nonneg h2]
  push_cast
  exact h

/-- Decoding an `absptr`-encoded FDE (branch `DW_EH_PE_absptr` of the
visitor): both fields are read verbatim. -/
theorem decode_abs (mem : Nat → Nat) (entry : Nat) (d z : Int)
    (hd0 : 0 ≤ d) (hd1 : d < 2 ^ 64) (hz0 : 0 ≤ z) (hz1 : z < 2 ^ 64)
    (hlay : ∀ j, j < (encU 8 d.toNat ++ encU 8 z.toNat).length →
      mem (entry + 8 + j) = (encU 8 d.toNat ++ encU 8 z.toNat).getD j 0)
    (hsize : readLE mem entry 4 = 4 + (encU 8 d.toNat ++ encU 8 z.toNat).length) :
    decodeFDE mem entry 0 = some (d.toNat, z.toNat) := by
  have e64i : (2 : Int) ^ 64 = 18446744073709551616 := by norm_num
  have e64n : (2 : Nat) ^ 64 = 18446744073709551616 := by norm_num
  have hlen : (encU 8 d.toNat ++ encU 8 z.toNat).length = 16 := by
    rw [List.length_append, (readList_encU 8 d.toNat).2, (readList_encU 8 z.toNat).2]
  have hdn : d.toNat < 2 ^ (8 * 8) := by
    rw [show (2 : Nat) ^ (8 * 8) = 18446744073709551616 from by norm_num]
    rw [e64i] at hd1
    omega
  have hzn : z.toNat < 2 ^ (8 * 8) := by
    rw [show (2 : Nat) ^ (8 * 8) = 18446744073709551616 from by norm_num]
    rw [e64i] at hz1
    omega
  obtain ⟨hr1, hr2⟩ := read_two_fields mem (entry + 8) 8 d.toNat z.toNat hlay hdn hzn
  simp only [decodeFDE]
  rw [if_pos (show True ∨ (0 : Nat) = 255 from Or.inl trivial)]
  rw [hsize, hlen]
  rw [if_pos (show 2 * 8 + 4 ≤ 4 + 16 from by norm_num)]
  rw [hr1, hr2]
  have h1 : d.toNat % 2 ^ 64 = d.toNat := Nat.mod_eq_of_lt (by rw [e64n]; rw [e64i] at hd1; omega)
  have h2 : z.toNat % 2 ^ 64 = z.toNat := Nat.mod_eq_of_lt (by rw [e64n]; rw [e64i] at hz1; omega)
  rw [h1, h2]

/-- Decoding a `pcrel | uleb128` FDE. -/
theorem decode_enc17 (mem : Nat → Nat) (entry : Nat) (d z : Int)
    (hd0 : 0 ≤ d) (hd1 : d < 2 ^ 64) (hz0 : 0 ≤ z) (hz1 : z < 2 ^ 64)
    (hst0 : 0 ≤ (entry : Int) + 8 + d) (hst1 : (entry : Int) + 8 + d < 2 ^ 64)
    (hlay : ∀ j, j < (ulebEnc d.toNat ++ ulebEnc z.toNat).length →
      mem (entry + 8 + j) = (ulebEnc d.toNat ++ ulebEnc z.toNat).getD j 0)
    (hsize : readLE mem entry 4 = 4 + (ulebEnc d.toNat ++ ulebEnc z.toNat).length) :
    decodeFDE mem entry 17 = some (((entry : Int) + 8 + d).toNat, z.toNat) := by
  have e64i : (2 : Int) ^ 64 = 18446744073709551616 := by norm_num
  have e64n : (2 : Nat) ^ 64 = 18446744073709551616 := by norm_num
  have hdb : d.toNat < 128 ^ (9 + 1) := by
    rw [show (128 : Nat) ^ (9 + 1) = 1180591620717411303424 from by norm_num]
    rw [e64i] at hd1
    omega
  have hzb : z.toNat < 128 ^ (9 + 1) := by
    rw [show (128 : Nat) ^ (9 + 1) = 1180591620717411303424 from by norm_num]
    rw [e64i] at hz1
    omega
  obtain ⟨hv1, hw1, hl1, hn1⟩ := ulebEncF_spec 9 d.toNat hdb
  obtain ⟨hv2, hw2, hl2, hn2⟩ := ulebEncF_spec 9 z.toNat hzb
  simp only [ulebEnc] at hlay hsize
  obtain ⟨hlay1, hlay2⟩ := layout_split mem (entry + 8) _ _ hlay
  simp only [decodeFDE]
  rw [if_neg (show ¬((17 : Nat) = 0 ∨ (17 : Nat) = 255) from by decide)]
  rw [if_neg (show ¬((17 : Nat) &&& 240 ≠ 16) from by decide)]
  rw [if_pos (show (17 : Nat) &&& 15 = 1 from by decide)]
  rw [hsize]
  have hp1 := parse_of_wfLeb false mem
    (entry + 4 + (4 + (ulebEncF 9 d.toNat ++ ulebEncF 9 z.toNat).length))
    (entry + 8) (ulebEncF 9 d.toNat) hlay1 hw1 hn1 hl1
    (by rw [List.length_append]; omega)
  rw [if_neg (show ¬(false = true) from by decide)] at hp1
  rw [hp1]
  dsimp only
  have hp2 := parse_of_wfLeb false mem
    (entry + 4 + (4 + (ulebEncF 9 d.toNat ++ ulebEncF 9 z.toNat).length))
    (entry + 8 + (ulebEncF 9 d.toNat).length) (ulebEncF 9 z.toNat) hlay2 hw2 hn2 hl2
    (by rw [List.length_append]; omega)
  rw [if_neg (show ¬(false = true) from by decide)] at hp2
  rw [hp2]
  dsimp only
  rw [hv1, hv2]
  have hdm : d.toNat % 2 ^ 64 = d.toNat :=
    Nat.mod_eq_of_lt (by rw [e64n]; rw [e64i] at hd1; omega)
  have hzm : z.toNat % 2 ^ 64 = z.toNat :=
    Nat.mod_eq_of_lt (by rw [e64n]; rw [e64i] at hz1; omega)
  rw [hdm, hzm]
  have hP : ((d.toNat : Nat) : Int) = d % 2 ^ 64 := by
    rw [e64i] at hd1 ⊢
    omega
  have hp := pcrel_add (entry + 8) d.toNat d hP (by push_cast; omega)
    (by push_cast; rw [e64i] at hst1; omega)
  rw [hp]
  rw [show ((entry + 8 : Nat) : Int) = (entry : Int) + 8 from by push_cast; ring]

/-- Decoding a `pcrel | sleb128` FDE. -/
theorem decode_enc25 (mem : Nat → Nat) (entry : Nat) (d z : Int)
    (hd0 : -(2 ^ 63) ≤ d) (hd1 : d < 2 ^ 63) (hz0 : 0 ≤ z) (hz1 : z < 2 ^ 63)
    (hst0 : 0 ≤ (entry : Int) + 8 + d) (hst1 : (entry : Int) + 8 + d < 2 ^ 64)
    (hlay : ∀ j, j < (slebEnc d ++ slebEnc z).length →
      mem (entry + 8 + j) = (slebEnc d ++ slebEnc z).getD j 0)
    (hsize : readLE mem entry 4 = 4 + (slebEnc d ++ slebEnc z).length) :
    decodeFDE mem entry 25 = some (((entry : Int) + 8 + d).toNat, z.toNat) := by
  have e64i : (2 : Int) ^ 64 = 18446744073709551616 := by norm_num
  have e63i : (2 : Int) ^ 63 = 9223372036854775808 := by norm_num
  have e69i : (64 * 128 ^ 9 : Int) = 590295810358705651712 := by norm_num
  have hdlo : -(64 * 128 ^ 9) ≤ d := by rw [e69i]; rw [e63i] at hd0; omega
  have hdhi : d < 64 * 128 ^ 9 := by rw [e69i]; rw [e63i] at hd1; omega
  have hzlo : -(64 * 128 ^ 9) ≤ z := by rw [e69i]; omega
  have hzhi : z < 64 * 128 ^ 9 := by rw [e69i]; rw [e63i] at hz1; omega
  obtain ⟨hv1, hw1, hl1, hn1⟩ := slebEncF_spec 9 d hdlo hdhi
  obtain ⟨hv2, hw2, hl2, hn2⟩ := slebEncF_spec 9 z hzlo hzhi
  simp only [slebEnc] at hlay hsize
  obtain ⟨hlay1, hlay2⟩ := layout_split mem (entry + 8) _ _ hlay
  simp only [decodeFDE]
  rw [if_neg (show ¬((25 : Nat) = 0 ∨ (25 : Nat) = 255) from by decide)]
  rw [if_neg (show ¬((25 : Nat) &&& 240 ≠ 16) from by decide)]
  rw [if_neg (show ¬((25 : Nat) &&& 15 = 1) from by decide)]
  rw [if_neg (show ¬((25 : Nat) &&& 15 = 2) from by decide)]
  rw [if_neg (show ¬((25 : Nat) &&& 15 = 3) from by decide)]
  rw [if_neg (show ¬((25 : Nat) &&& 15 = 4) from by decide)]
  rw [if_neg (show ¬((25 : Nat) &&& 15 = 8) from by decide)]
  rw [if_pos (show (25 : Nat) &&& 15 = 9 from by decide)]
  rw [hsize]
  have hp1 := parse_of_wfLeb true mem
    (entry + 4 + (4 + (slebEncF 9 d ++ slebEncF 9 z).length))
    (entry + 8) (slebEncF 9 d) hlay1 hw1 hn1 hl1
    (by rw [List.length_append]; omega)
  rw [if_pos (rfl : true = true)] at hp1
  rw [hp1]
  dsimp only
  have hp2 := parse_of_wfLeb true mem
    (entry + 4 + (4 + (slebEncF 9 d ++ slebEncF 9 z).length))
    (entry + 8 + (slebEncF 9 d).length) (slebEncF 9 z) hlay2 hw2 hn2 hl2
    (by rw [List.length_append]; omega)
  rw [if_pos (rfl : true = true)] at hp2
  rw [hp2]
  dsimp only
  rw [hv1, hv2]
  have hp := pcrel_add (entry + 8) ((d % 2 ^ 64).toNat) d (emod_pow_toNat 64 d)
    (by push_cast; omega) (by push_cast; rw [e64i] at hst1; omega)
  rw [hp]
  have hzz := size_val ((z % 2 ^ 64).toNat) z (emod_pow_toNat 64 z) hz0
    (by rw [e64i]; rw [e63i] at hz1; omega)
  rw [hzz]
  rw [show ((entry + 8 : Nat) : Int) = (entry : Int) + 8 from by push_cast; ring]

end Debuginfo

namespace Debuginfo

/-- Decoding a `pcrel | udata2` FDE. -/
theorem decode_enc18 (mem : Nat → Nat) (entry : Nat) (d z : Int)
    (hd0 : 0 ≤ d) (hd1 : d < 2 ^ 16) (hz0 : 0 ≤ z) (hz1 : z < 2 ^ 16)
    (hst0 : 0 ≤ (entry : Int) + 8 + d) (hst1 : (entry : Int) + 8 + d < 2 ^ 64)
    (hlay : ∀ j, j < (encU 2 d.toNat ++ encU 2 z.toNat).length →
      mem (entry + 8 + j) = (encU 2 d.toNat ++ encU 2 z.toNat).getD j 0)
    (hsize : readLE mem entry 4 = 4 + (encU 2 d.toNat ++ encU 2 z.toNat).length) :
    decodeFDE mem entry 18 = some (((entry : Int) + 8 + d).toNat, z.toNat) := by
  have e64i : (2 : Int) ^ 64 = 18446744073709551616 := by norm_num
  have e16i : (2 : Int) ^ 16 = 65536 := by norm_num
  have hlen : (encU 2 d.toNat ++ encU 2 z.toNat).length = 4 := by
    rw [List.length_append, (readList_encU 2 d.toNat).2, (readList_encU 2 z.toNat).2]
  have hdn : d.toNat < 2 ^ (8 * 2) := by
    rw [show (2 : Nat) ^ (8 * 2) = 65536 from by norm_num]
    rw [e16i] at hd1
    omega
  have hzn : z.toNat < 2 ^ (8 * 2) := by
    rw [show (2 : Nat) ^ (8 * 2) = 65536 from by norm_num]
    rw [e16i] at hz1
    omega
  obtain ⟨hr1, hr2⟩ := read_two_fields mem (entry + 8) 2 d.toNat z.toNat hlay hdn hzn
  simp only [decodeFDE]
  rw [if_neg (show ¬((18 : Nat) = 0 ∨ (18 : Nat) = 255) from by decide)]
  rw [if_neg (show ¬((18 : Nat) &&& 240 ≠ 16) from by decide)]
  rw [if_neg (show ¬((18 : Nat) &&& 15 = 1) from by decide)]
  rw [if_pos (show (18 : Nat) &&& 15 = 2 from by decide)]
  rw [hsize, hlen]
  rw [if_pos (show 2 * 2 + 4 ≤ 4 + 4 from by norm_num)]
  rw [hr1, hr2]
  have hP : ((d.toNat : Nat) : Int) = d % 2 ^ 64 := by
    rw [e64i]
    rw [e16i] at hd1
    omega
  have hp := pcrel_add (entry + 8) d.toNat d hP (by push_cast; omega)
    (by push_cast; rw [e64i] at hst1; omega)
  rw [hp]
  rw [show ((entry + 8 : Nat) : Int) = (entry : Int) + 8 from by push_cast; ring]

/-- Decoding a `pcrel | udata4` FDE. -/
theorem decode_enc19 (mem : Nat → Nat) (entry : Nat) (d z : Int)
    (hd0 : 0 ≤ d) (hd1 : d < 2 ^ 32) (hz0 : 0 ≤ z) (hz1 : z < 2 ^ 32)
    (hst0 : 0 ≤ (entry : Int) + 8 + d) (hst1 : (entry : Int) + 8 + d < 2 ^ 64)
    (hlay : ∀ j, j < (encU 4 d.toNat ++ encU 4 z.toNat).length →
      mem (entry + 8 + j) = (encU 4 d.toNat ++ encU 4 z.toNat).getD j 0)
    (hsize : readLE mem entry 4 = 4 + (encU 4 d.toNat ++ encU 4 z.toNat).length) :
    decodeFDE mem entry 19 = some (((entry : Int) + 8 + d).toNat, z.toNat) := by
  have e64i : (2 : Int) ^ 64 = 18446744073709551616 := by norm_num
  have e32i : (2 : Int) ^ 32 = 4294967296 := by norm_num
  have hlen : (encU 4 d.toNat ++ encU 4 z.toNat).length = 8 := by
    rw [List.length_append, (readList_encU 4 d.toNat).2, (readList_encU 4 z.toNat).2]
  have hdn : d.toNat < 2 ^ (8 * 4) := by
    rw [show (2 : Nat) ^ (8 * 4) = 4294967296 from by norm_num]
    rw [e32i] at hd1
    omega
  have hzn : z.toNat < 2 ^ (8 * 4) := by
    rw [show (2 : Nat) ^ (8 * 4) = 4294967296 from by norm_num]
    rw [e32i] at hz1
    omega
  obtain ⟨hr1, hr2⟩ := read_two_fields mem (entry + 8) 4 d.toNat z.toNat hlay hdn hzn
  simp only [decodeFDE]
  rw [if_neg (show ¬((19 : Nat) = 0 ∨ (19 : Nat) = 255) from by decide)]
  rw [if_neg (show ¬((19 : Nat) &&& 240 ≠ 16) from by decide)]
  rw [if_neg (show ¬((19 : Nat) &&& 15 = 1) from by decide)]
  rw [if_neg (show ¬((19 : Nat) &&& 15 = 2) from by decide)]
  rw [if_pos (show (19 : Nat) &&& 15 = 3 from by decide)]
  rw [hsize, hlen]
  rw [if_pos (show 2 * 4 + 4 ≤ 4 + 8 from by norm_num)]
  rw [hr1, hr2]
  have hP : ((d.toNat : Nat) : Int) = d % 2 ^ 64 := by
    rw [e64i]
    rw [e32i] at hd1
    omega
  have hp := pcrel_add (entry + 8) d.toNat d hP (by push_cast; omega)
    (by push_cast; rw [e64i] at hst1; omega)
  rw [hp]
  rw [show ((entry + 8 : Nat) : Int) = (entry : Int) + 8 from by push_cast; ring]

/-- Decoding a `pcrel | udata8` FDE. -/
theorem decode_enc20 (mem : Nat → Nat) (entry : Nat) (d z : Int)
    (hd0 : 0 ≤ d) (hd1 : d < 2 ^ 64) (hz0 : 0 ≤ z) (hz1 : z < 2 ^ 64)
    (hst0 : 0 ≤ (entry : Int) + 8 + d) (hst1 : (entry : Int) + 8 + d < 2 ^ 64)
    (hlay : ∀ j, j < (encU 8 d.toNat ++ encU 8 z.toNat).length →
      mem (entry + 8 + j) = (encU 8 d.toNat ++ encU 8 z.toNat).getD j 0)
    (hsize : readLE mem entry 4 = 4 + (encU 8 d.toNat ++ encU 8 z.toNat).length) :
    decodeFDE mem entry 20 = some (((entry : Int) + 8 + d).toNat, z.toNat) := by
  have e64i : (2 : Int) ^ 64 = 18446744073709551616 := by norm_num
  have e64n : (2 : Nat) ^ 64 = 18446744073709551616 := by norm_num
  have hlen : (encU 8 d.toNat ++ encU 8 z.toNat).length = 16 := by
    rw [List.length_append, (readList_encU 8 d.toNat).2, (readList_encU 8 z.toNat).2]
  have hdn : d.toNat < 2 ^ (8 * 8) := by
    rw [show (2 : Nat) ^ (8 * 8) = 18446744073709551616 from by norm_num]
    rw [e64i] at hd1
    omega
  have hzn : z.toNat < 2 ^ (8 * 8) := by
    rw [show (2 : Nat) ^ (8 * 8) = 18446744073709551616 from by norm_num]
    rw [e64i] at hz1
    omega
  obtain ⟨hr1, hr2⟩ := read_two_fields mem (entry + 8) 8 d.toNat z.toNat hlay hdn hzn
  simp only [decodeFDE]
  rw [if_neg (show ¬((20 : Nat) = 0 ∨ (20 : Nat) = 255) from by decide)]
  rw [if_neg (show ¬((20 : Nat) &&& 240 ≠ 16) from by decide)]
  rw [if_neg (show ¬((20 : Nat) &&& 15 = 1) from by decide)]
  rw [if_neg (show ¬((20 : Nat) &&& 15 = 2) from by decide)]
  rw [if_neg (show ¬((20 : Nat) &&& 15 = 3) from by decide)]
  rw [if_pos (show (20 : Nat) &&& 15 = 4 from by decide)]
  rw [hsize, hlen]
  rw [if_pos (show 2 * 8 + 4 ≤ 4 + 16 from by norm_num)]
  rw [hr1, hr2]
  have hzm : z.toNat % 2 ^ 64 = z.toNat :=
    Nat.mod_eq_of_lt (by rw [e64n]; rw [e64i] at hz1; omega)
  rw [hzm]
  have hP : ((d.toNat : Nat) : Int) = d % 2 ^ 64 := by
    rw [e64i] at hd1 ⊢
    omega
  have hp := pcrel_add (entry + 8) d.toNat d hP (by push_cast; omega)
    (by push_cast; rw [e64i] at hst1; omega)
  rw [hp]
  rw [show ((entry + 8 : Nat) : Int) = (entry : Int) + 8 from by push_cast; ring]

end Debuginfo

namespace Debuginfo

set_option maxHeartbeats 4000000 in
/-- Decoding a `pcrel | signed` (pointer-sized signed) FDE. -/
theorem decode_enc24 (mem : Nat → Nat) (entry : Nat) (d z : Int)
    (hd0 : -(2 ^ 63) ≤ d) (hd1 : d < 2 ^ 63) (hz0 : 0 ≤ z) (hz1 : z < 2 ^ 63)
    (hst0 : 0 ≤ (entry : Int) + 8 + d) (hst1 : (entry : Int) + 8 + d < 2 ^ 64)
    (hlay : ∀ j, j < (encU 8 (d % 2 ^ 64).toNat ++ encU 8 (z % 2 ^ 64).toNat).length →
      mem (entry + 8 + j) = (encU 8 (d % 2 ^ 64).toNat ++ encU 8 (z % 2 ^ 64).toNat).getD j 0)
    (hsize : readLE mem entry 4
      = 4 + (encU 8 (d % 2 ^ 64).toNat ++ encU 8 (z % 2 ^ 64).toNat).length) :
    decodeFDE mem entry 24 = some (((entry : Int) + 8 + d).toNat, z.toNat) := by
  have e64i : (2 : Int) ^ 64 = 18446744073709551616 := by norm_num
  have e63i : (2 : Int) ^ 63 = 9223372036854775808 := by norm_num
  have hlen : (encU 8 (d % 2 ^ 64).toNat ++ encU 8 (z % 2 ^ 64).toNat).length = 16 := by
    rw [List.length_append, (readList_encU 8 _).2, (readList_encU 8 _).2]
  have hdn : (d % 2 ^ 64).toNat < 2 ^ (8 * 8) := by
    have h := emod_pow_toNat_lt 64 d
    rw [show (2 : Nat) ^ (8 * 8) = 2 ^ 64 from by norm_num]
    exact h
  have hzn : (z % 2 ^ 64).toNat < 2 ^ (8 * 8) := by
    have h := emod_pow_toNat_lt 64 z
    rw [show (2 : Nat) ^ (8 * 8) = 2 ^ 64 from by norm_num]
    exact h
  obtain ⟨hr1, hr2⟩ := read_two_fields mem (entry + 8) 8 (d % 2 ^ 64).toNat
    (z % 2 ^ 64).toNat hlay hdn hzn
  simp only [decodeFDE]
  rw [if_neg (show ¬((24 : Nat) = 0 ∨ (24 : Nat) = 255) from by decide)]
  rw [if_neg (show ¬((24 : Nat) &&& 240 ≠ 16) from by decide)]
  rw [if_neg (show ¬((24 : Nat) &&& 15 = 1) from by decide)]
  rw [if_neg (show ¬((24 : Nat) &&& 15 = 2) from by decide)]
  rw [if_neg (show ¬((24 : Nat) &&& 15 = 3) from by decide)]
  rw [if_neg (show ¬((24 : Nat) &&& 15 = 4) from by decide)]
  rw [if_pos (show (24 : Nat) &&& 15 = 8 from by decide)]
  rw [hsize, hlen]
  rw [if_pos (show 2 * 8 + 4 ≤ 4 + 16 from by norm_num)]
  rw [hr1, hr2]
  have hzm : (z % 2 ^ 64).toNat % 2 ^ 64 = (z % 2 ^ 64).toNat :=
    Nat.mod_eq_of_lt (emod_pow_toNat_lt 64 z)
  rw [hzm]
  have hzz := size_val ((z % 2 ^ 64).toNat) z (emod_pow_toNat 64 z) hz0
    (by rw [e64i]; rw [e63i] at hz1; omega)
  rw [hzz]
  have hp := pcrel_add (entry + 8) ((d % 2 ^ 64).toNat) d (emod_pow_toNat 64 d)
    (by push_cast; omega) (by push_cast; rw [e64i] at hst1; omega)
  rw [hp]
  rw [show ((entry + 8 : Nat) : Int) = (entry : Int) + 8 from by push_cast; ring]

/-- Decoding a `pcrel | sdata2` FDE. -/
theorem decode_enc26 (mem : Nat → Nat) (entry : Nat) (d z : Int)
    (hd0 : -(2 ^ 15) ≤ d) (hd1 : d < 2 ^ 15) (hz0 : 0 ≤ z) (hz1 : z < 2 ^ 15)
    (hst0 : 0 ≤ (entry : Int) + 8 + d) (hst1 : (entry : Int) + 8 + d < 2 ^ 64)
    (hlay : ∀ j, j < (encU 2 (d % 2 ^ 16).toNat ++ encU 2 (z % 2 ^ 16).toNat).length →
      mem (entry + 8 + j) = (encU 2 (d % 2 ^ 16).toNat ++ encU 2 (z % 2 ^ 16).toNat).getD j 0)
    (hsize : readLE mem entry 4
      = 4 + (encU 2 (d % 2 ^ 16).toNat ++ encU 2 (z % 2 ^ 16).toNat).length) :
    decodeFDE mem entry 26 = some (((entry : Int) + 8 + d).toNat, z.toNat) := by
  have e64i : (2 : Int) ^ 64 = 18446744073709551616 := by norm_num
  have e15i : (2 : Int) ^ 15 = 32768 := by norm_num
  have hlen : (encU 2 (d % 2 ^ 16).toNat ++ encU 2 (z % 2 ^ 16).toNat).length = 4 := by
    rw [List.length_append, (readList_encU 2 _).2, (readList_encU 2 _).2]
  have hdn : (d % 2 ^ 16).toNat < 2 ^ (8 * 2) := by
    have h := emod_pow_toNat_lt 16 d
    rw [show (2 : Nat) ^ (8 * 2) = 2 ^ 16 from by norm_num]
    exact h
  have hzn : (z % 2 ^ 16).toNat < 2 ^ (8 * 2) := by
    have h := emod_pow_toNat_lt 16 z
    rw [show (2 : Nat) ^ (8 * 2) = 2 ^ 16 from by norm_num]
    exact h
  obtain ⟨hr1, hr2⟩ := read_two_fields mem (entry + 8) 2 (d % 2 ^ 16).toNat
    (z % 2 ^ 16).toNat hlay hdn hzn
  simp only [decodeFDE]
  rw [if_neg (show ¬((26 : Nat) = 0 ∨ (26 : Nat) = 255) from by decide)]
  rw [if_neg (show ¬((26 : Nat) &&& 240 ≠ 16) from by decide)]
  rw [if_neg (show ¬((26 : Nat) &&& 15 = 1) from by decide)]
  rw [if_neg (show ¬((26 : Nat) &&& 15 = 2) from by decide)]
  rw [if_neg (show ¬((26 : Nat) &&& 15 = 3) from by decide)]
  rw [if_neg (show ¬((26 : Nat) &&& 15 = 4) from by decide)]
  rw [if_neg (show ¬((26 : Nat) &&& 15 = 8) from by decide)]
  rw [if_neg (show ¬((26 : Nat) &&& 15 = 9) from by decide)]
  rw [if_pos (show (26 : Nat) &&& 15 = 10 from by decide)]
  rw [hsize, hlen]
  rw [if_pos (show 2 * 2 + 4 ≤ 4 + 4 from by norm_num)]
  rw [hr1, hr2]
  have hQ := sextPat_16 z (by rw [e15i]; omega) hz1
  have hzz := size_val (sextPat 16 (z % 2 ^ 16).toNat) z hQ hz0
    (by rw [e64i]; rw [e15i] at hz1; omega)
  rw [hzz]
  have hp := pcrel_add (entry + 8) (sextPat 16 (d % 2 ^ 16).toNat) d (sextPat_16 d hd0 hd1)
    (by push_cast; omega) (by push_cast; rw [e64i] at hst1; omega)
  rw [hp]
  rw [show ((entry + 8 : Nat) : Int) = (entry : Int) + 8 from by push_cast; ring]

/-- Decoding a `pcrel | sdata4` FDE. -/
theorem decode_enc27 (mem : Nat → Nat) (entry : Nat) (d z : Int)
    (hd0 : -(2 ^ 31) ≤ d) (hd1 : d < 2 ^ 31) (hz0 : 0 ≤ z) (hz1 : z < 2 ^ 31)
    (hst0 : 0 ≤ (entry : Int) + 8 + d) (hst1 : (entry : Int) + 8 + d < 2 ^ 64)
    (hlay : ∀ j, j < (encU 4 (d % 2 ^ 32).toNat ++ encU 4 (z % 2 ^ 32).toNat).length →
      mem (entry + 8 + j) = (encU 4 (d % 2 ^ 32).toNat ++ encU 4 (z % 2 ^ 32).toNat).getD j 0)
    (hsize : readLE mem entry 4
      = 4 + (encU 4 (d % 2 ^ 32).toNat ++ encU 4 (z % 2 ^ 32).toNat).length) :
    decodeFDE mem entry 27 = some (((entry : Int) + 8 + d).toNat, z.toNat) := by
  have e64i : (2 : Int) ^ 64 = 18446744073709551616 := by norm_num
  have e31i : (2 : Int) ^ 31 = 2147483648 := by norm_num
  have hlen : (encU 4 (d % 2 ^ 32).toNat ++ encU 4 (z % 2 ^ 32).toNat).length = 8 := by
    rw [List.length_append, (readList_encU 4 _).2, (readList_encU 4 _).2]
  have hdn : (d % 2 ^ 32).toNat < 2 ^ (8 * 4) := by
    have h := emod_pow_toNat_lt 32 d
    rw [show (2 : Nat) ^ (8 * 4) = 2 ^ 32 from by norm_num]
    exact h
  have hzn : (z % 2 ^ 32).toNat < 2 ^ (8 * 4) := by
    have h := emod_pow_toNat_lt 32 z
    rw [show (2 : Nat) ^ (8 * 4) = 2 ^ 32 from by norm_num]
    exact h
  obtain ⟨hr1, hr2⟩ := read_two_fields mem (entry + 8) 4 (d % 2 ^ 32).toNat
    (z % 2 ^ 32).toNat hlay hdn hzn
  simp only [decodeFDE]
  rw [if_neg (show ¬((27 : Nat) = 0 ∨ (27 : Nat) = 255) from by decide)]
  rw [if_neg (show ¬((27 : Nat) &&& 240 ≠ 16) from by decide)]
  rw [if_neg (show ¬((27 : Nat) &&& 15 = 1) from by decide)]
  rw [if_neg (show ¬((27 : Nat) &&& 15 = 2) from by decide)]
  rw [if_neg (show ¬((27 : Nat) &&& 15 = 3) from by decide)]
  rw [if_neg (show ¬((27 : Nat) &&& 15 = 4) from by decide)]
  rw [if_neg (show ¬((27 : Nat) &&& 15 = 8) from by decide)]
  rw [if_neg (show ¬((27 : Nat) &&& 15 = 9) from by decide)]
  rw [if_neg (show ¬((27 : Nat) &&& 15 = 10) from by decide)]
  rw [if_pos (show (27 : Nat) &&& 15 = 11 from by decide)]
  rw [hsize, hlen]
  rw [if_pos (show 2 * 4 + 4 ≤ 4 + 8 from by norm_num)]
  rw [hr1, hr2]
  have hQ := sextPat_32 z (by rw [e31i]; omega) hz1
  have hzz := size_val (sextPat 32 (z % 2 ^ 32).toNat) z hQ hz0
    (by rw [e64i]; rw [e31i] at hz1; omega)
  rw [hzz]
  have hp := pcrel_add (entry + 8) (sextPat 32 (d % 2 ^ 32).toNat) d (sextPat_32 d hd0 hd1)
    (by push_cast; omega) (by push_cast; rw [e64i] at hst1; omega)
  rw [hp]
  rw [show ((entry + 8 : Nat) : Int) = (entry : Int) + 8 from by push_cast; ring]

set_option maxHeartbeats 4000000 in
/-- Decoding a `pcrel | sdata8` FDE. -/
theorem decode_enc28 (mem : Nat → Nat) (entry : Nat) (d z : Int)
    (hd0 : -(2 ^ 63) ≤ d) (hd1 : d < 2 ^ 63) (hz0 : 0 ≤ z) (hz1 : z < 2 ^ 63)
    (hst0 : 0 ≤ (entry : Int) + 8 + d) (hst1 : (entry : Int) + 8 + d < 2 ^ 64)
    (hlay : ∀ j, j < (encU 8 (d % 2 ^ 64).toNat ++ encU 8 (z % 2 ^ 64).toNat).length →
      mem (entry + 8 + j) = (encU 8 (d % 2 ^ 64).toNat ++ encU 8 (z % 2 ^ 64).toNat).getD j 0)
    (hsize : readLE mem entry 4
      = 4 + (encU 8 (d % 2 ^ 64).toNat ++ encU 8 (z % 2 ^ 64).toNat).length) :
    decodeFDE mem entry 28 = some (((entry : Int) + 8 + d).toNat, z.toNat) := by
  have e64i : (2 : Int) ^ 64 = 18446744073709551616 := by norm_num
  have e63i : (2 : Int) ^ 63 = 9223372036854775808 := by norm_num
  have hlen : (encU 8 (d % 2 ^ 64).toNat ++ encU 8 (z % 2 ^ 64).toNat).length = 16 := by
    rw [List.length_append, (readList_encU 8 _).2, (readList_encU 8 _).2]
  have hdn : (d % 2 ^ 64).toNat < 2 ^ (8 * 8) := by
    have h := emod_pow_toNat_lt 64 d
    rw [show (2 : Nat) ^ (8 * 8) = 2 ^ 64 from by norm_num]
    exact h
  have hzn : (z % 2 ^ 64).toNat < 2 ^ (8 * 8) := by
    have h := emod_pow_toNat_lt 64 z
    rw [show (2 : Nat) ^ (8 * 8) = 2 ^ 64 from by norm_num]
    exact h
  obtain ⟨hr1, hr2⟩ := read_two_fields mem (entry + 8) 8 (d % 2 ^ 64).toNat
    (z % 2 ^ 64).toNat hlay hdn hzn
  simp only [decodeFDE]
  rw [if_neg (show ¬((28 : Nat) = 0 ∨ (28 : Nat) = 255) from by decide)]
  rw [if_neg (show ¬((28 : Nat) &&& 240 ≠ 16) from by decide)]
  rw [if_neg (show ¬((28 : Nat) &&& 15 = 1) from by decide)]
  rw [if_neg (show ¬((28 : Nat) &&& 15 = 2) from by decide)]
  rw [if_neg (show ¬((28 : Nat) &&& 15 = 3) from by decide)]
  rw [if_neg (show ¬((28 : Nat) &&& 15 = 4) from by decide)]
  rw [if_neg (show ¬((28 : Nat) &&& 15 = 8) from by decide)]
  rw [if_neg (show ¬((28 : Nat) &&& 15 = 9) from by decide)]
  rw [if_neg (show ¬((28 : Nat) &&& 15 = 10) from by decide)]
  rw [if_neg (show ¬((28 : Nat) &&& 15 = 11) from by decide)]
  rw [if_pos (show (28 : Nat) &&& 15 = 12 from by decide)]
  rw [hsize, hlen]
  rw [if_pos (show 2 * 8 + 4 ≤ 4 + 16 from by norm_num)]
  rw [hr1, hr2]
  have hzm : (z % 2 ^ 64).toNat % 2 ^ 64 = (z % 2 ^ 64).toNat :=
    Nat.mod_eq_of_lt (emod_pow_toNat_lt 64 z)
  rw [hzm]
  have hzz := size_val ((z % 2 ^ 64).toNat) z (emod_pow_toNat 64 z) hz0
    (by rw [e64i]; rw [e63i] at hz1; omega)
  rw [hzz]
  have hp := pcrel_add (entry + 8) ((d % 2 ^ 64).toNat) d (emod_pow_toNat 64 d)
    (by push_cast; omega) (by push_cast; rw [e64i] at hst1; omega)
  rw [hp]
  rw [show ((entry + 8 : Nat) : Int) = (entry : Int) + 8 from by push_cast; ring]

end Debuginfo

namespace Debuginfo

/-- C2: CFI FDE decoding: for an FDE whose owning CIE (as interpreted by
`parseCIE`) specifies one of the supported address encodings (absolute
pointer, or pc-relative combined with uleb128, sleb128, or 2/4/8-byte
unsigned or signed data), the `register_eh_frames` visitor decodes the FDE's
(start, size) pair to exactly the encoded values `(d, z)`, with pc-relative
start values resolved against the address of the FDE's start-address field
(`entry + 8`). -/
theorem fde_decode_exact (mem : Nat → Nat) (entry cieaddr e enc : Nat) (d z : Int)
    (bytes : List Nat)
    (hcie : parseCIE mem cieaddr e = some enc)
    (hsup : supportedEnc enc)
    (henc : encodePC enc d z = some bytes)
    (hlay : ∀ j, j < bytes.length → mem (entry + 8 + j) = bytes.getD j 0)
    (hsize : readLE mem entry 4 = 4 + bytes.length)
    (hst0 : 0 ≤ (entry : Int) + 8 + d) (hst1 : (entry : Int) + 8 + d < 2 ^ 64) :
    decodeFDE mem entry enc
      = some ((if enc = 0 then d else (entry : Int) + 8 + d).toNat, z.toNat) := by
  rcases hsup with rfl | rfl | rfl | rfl | rfl | rfl | rfl | rfl | rfl | rfl
  · simp only [encodePC] at henc
    rw [if_pos (trivial : True)] at henc
    rw [if_pos (rfl : (0 : Nat) = 0)]
    by_cases hg : 0 ≤ d ∧ d < 2 ^ 64 ∧ 0 ≤ z ∧ z < 2 ^ 64
    · rw [if_pos hg] at henc
      obtain ⟨hd0, hd1, hz0, hz1⟩ := hg
      have hb := Option.some.inj henc
      subst hb
      exact decode_abs mem entry d z hd0 hd1 hz0 hz1 hlay hsize
    · rw [if_neg hg] at henc
      exact Option.noConfusion henc
  · simp only [encodePC] at henc
    rw [if_neg (show ¬((17 : Nat) = 0) from by decide),
      if_pos (trivial : True)] at henc
    rw [if_neg (show ¬((17 : Nat) = 0) from by decide)]
    by_cases hg : 0 ≤ d ∧ d < 2 ^ 64 ∧ 0 ≤ z ∧ z < 2 ^ 64
    · rw [if_pos hg] at henc
      obtain ⟨hd0, hd1, hz0, hz1⟩ := hg
      have hb := Option.some.inj henc
      subst hb
      exact decode_enc17 mem entry d z hd0 hd1 hz0 hz1 hst0 hst1 hlay hsize
    · rw [if_neg hg] at henc
      exact Option.noConfusion henc
  · simp only [encodePC] at henc
    rw [if_neg (show ¬((25 : Nat) = 0) from by decide),
      if_neg (show ¬((25 : Nat) = 17) from by decide),
      if_pos (trivial : True)] at henc
    rw [if_neg (show ¬((25 : Nat) = 0) from by decide)]
    by_cases hg : -(2 ^ 63) ≤ d ∧ d < 2 ^ 63 ∧ 0 ≤ z ∧ z < 2 ^ 63
    · rw [if_pos hg] at henc
      obtain ⟨hd0, hd1, hz0, hz1⟩ := hg
      have hb := Option.some.inj henc
      subst hb
      exact decode_enc25 mem entry d z hd0 hd1 hz0 hz1 hst0 hst1 hlay hsize
    · rw [if_neg hg] at henc
      exact Option.noConfusion henc
  · simp only [encodePC] at henc
    rw [if_neg (show ¬((18 : Nat) = 0) from by decide),
      if_neg (show ¬((18 : Nat) = 17) from by decide),
      if_neg (show ¬((18 : Nat) = 25) from by decide),
      if_pos (trivial : True)] at henc
    rw [if_neg (show ¬((18 : Nat) = 0) from by decide)]
    by_cases hg : 0 ≤ d ∧ d < 2 ^ 16 ∧ 0 ≤ z ∧ z < 2 ^ 16
    · rw [if_pos hg] at henc
      obtain ⟨hd0, hd1, hz0, hz1⟩ := hg
      have hb := Option.some.inj henc
      subst hb
      exact decode_enc18 mem entry d z hd0 hd1 hz0 hz1 hst0 hst1 hlay hsize
    · rw [if_neg hg] at henc
      exact Option.noConfusion henc
  · simp only [encodePC] at henc
    rw [if_neg (show ¬((19 : Nat) = 0) from by decide),
      if_neg (show ¬((19 : Nat) = 17) from by decide),
      if_neg (show ¬((19 : Nat) = 25) from by decide),
      if_neg (show ¬((19 : Nat) = 18) from by decide),
      if_pos (trivial : True)] at henc
    rw [if_neg (show ¬((19 : Nat) = 0) from by decide)]
    by_cases hg : 0 ≤ d ∧ d < 2 ^ 32 ∧ 0 ≤ z ∧ z < 2 ^ 32
    · rw [if_pos hg] at henc
      obtain ⟨hd0, hd1, hz0, hz1⟩ := hg
      have hb := Option.some.inj henc
      subst hb
      exact decode_enc19 mem entry d z hd0 hd1 hz0 hz1 hst0 hst1 hlay hsize
    · rw [if_neg hg] at henc
      exact Option.noConfusion henc
  · simp only [encodePC] at henc
    rw [if_neg (show ¬((20 : Nat) = 0) from by decide),
      if_neg (show ¬((20 : Nat) = 17) from by decide),
      if_neg (show ¬((20 : Nat) = 25) from by decide),
      if_neg (show ¬((20 : Nat) = 18) from by decide),
      if_neg (show ¬((20 : Nat) = 19) from by decide),
      if_pos (trivial : True)] at henc
    rw [if_neg (show ¬((20 : Nat) = 0) from by decide)]
    by_cases hg : 0 ≤ d ∧ d < 2 ^ 64 ∧ 0 ≤ z ∧ z < 2 ^ 64
    · rw [if_pos hg] at henc
      obtain ⟨hd0, hd1, hz0, hz1⟩ := hg
      have hb := Option.some.inj henc
      subst hb
      exact decode_enc20 mem entry d z hd0 hd1 hz0 hz1 hst0 hst1 hlay hsize
    · rw [if_neg hg] at henc
      exact Option.noConfusion henc
  · simp only [encodePC] at henc
    rw [if_neg (show ¬((24 : Nat) = 0) from by decide),
      if_neg (show ¬((24 : Nat) = 17) from by decide),
      if_neg (show ¬((24 : Nat) = 25) from by decide),
      if_neg (show ¬((24 : Nat) = 18) from by decide),
      if_neg (show ¬((24 : Nat) = 19) from by decide),
      if_neg (show ¬((24 : Nat) = 20) from by decide),
      if_pos (trivial : True)] at henc
    rw [if_neg (show ¬((24 : Nat) = 0) from by decide)]
    by_cases hg : -(2 ^ 63) ≤ d ∧ d < 2 ^ 63 ∧ 0 ≤ z ∧ z < 2 ^ 63
    · rw [if_pos hg] at henc
      obtain ⟨hd0, hd1, hz0, hz1⟩ := hg
      have hb := Option.some.inj henc
      subst hb
      exact decode_enc24 mem entry d z hd0 hd1 hz0 hz1 hst0 hst1 hlay hsize
    · rw [if_neg hg] at henc
      exact Option.noConfusion henc
  · simp only [encodePC] at henc
    rw [if_neg (show ¬((26 : Nat) = 0) from by decide),
      if_neg (show ¬((26 : Nat) = 17) from by decide),
      if_neg (show ¬((26 : Nat) = 25) from by decide),
      if_neg (show ¬((26 : Nat) = 18) from by decide),
      if_neg (show ¬((26 : Nat) = 19) from by decide),
      if_neg (show ¬((26 : Nat) = 20) from by decide),
      if_neg (show ¬((26 : Nat) = 24) from by decide),
      if_pos (trivial : True)] at henc
    rw [if_neg (show ¬((26 : Nat) = 0) from by decide)]
    by_cases hg : -(2 ^ 15) ≤ d ∧ d < 2 ^ 15 ∧ 0 ≤ z ∧ z < 2 ^ 15
    · rw [if_pos hg] at henc
      obtain ⟨hd0, hd1, hz0, hz1⟩ := hg
      have hb := Option.some.inj henc
      subst hb
      exact decode_enc26 mem entry d z hd0 hd1 hz0 hz1 hst0 hst1 hlay hsize
    · rw [if_neg hg] at henc
      exact Option.noConfusion henc
  · simp only [encodePC] at henc
    rw [if_neg (show ¬((27 : Nat) = 0) from by decide),
      if_neg (show ¬((27 : Nat) = 17) from by decide),
      if_neg (show ¬((27 : Nat) = 25) from by decide),
      if_neg (show ¬((27 : Nat) = 18) from by decide),
      if_neg (show ¬((27 : Nat) = 19) from by decide),
      if_neg (show ¬((27 : Nat) = 20) from by decide),
      if_neg (show ¬((27 : Nat) = 24) from by decide),
      if_neg (show ¬((27 : Nat) = 26) from by decide),
      if_pos (trivial : True)] at henc
    rw [if_neg (show ¬((27 : Nat) = 0) from by decide)]
    by_cases hg : -(2 ^ 31) ≤ d ∧ d < 2 ^ 31 ∧ 0 ≤ z ∧ z < 2 ^ 31
    · rw [if_pos hg] at henc
      obtain ⟨hd0, hd1, hz0, hz1⟩ := hg
      have hb := Option.some.inj henc
      subst hb
      exact decode_enc27 mem entry d z hd0 hd1 hz0 hz1 hst0 hst1 hlay hsize
    · rw [if_neg hg] at henc
      exact Option.noConfusion henc
  · simp only [encodePC] at henc
    rw [if_neg (show ¬((28 : Nat) = 0) from by decide),
      if_neg (show ¬((28 : Nat) = 17) from by decide),
      if_neg (show ¬((28 : Nat) = 25) from by decide),
      if_neg (show ¬((28 : Nat) = 18) from by decide),
      if_neg (show ¬((28 : Nat) = 19) from by decide),
      if_neg (show ¬((28 : Nat) = 20) from by decide),
      if_neg (show ¬((28 : Nat) = 24) from by decide),
      if_neg (show ¬((28 : Nat) = 26) from by decide),
      if_neg (show ¬((28 : Nat) = 27) from by decide),
      if_pos (trivial : True)] at henc
    rw [if_neg (show ¬((28 : Nat) = 0) from by decide)]
    by_cases hg : -(2 ^ 63) ≤ d ∧ d < 2 ^ 63 ∧ 0 ≤ z ∧ z < 2 ^ 63
    · rw [if_pos hg] at henc
      obtain ⟨hd0, hd1, hz0, hz1⟩ := hg
      have hb := Option.some.inj henc
      subst hb
      exact decode_enc28 mem entry d z hd0 hd1 hz0 hz1 hst0 hst1 hlay hsize
    · rw [if_neg hg] at henc
      exact Option.noConfusion henc

/-- A concrete eh-frame byte image: a CIE at address 0 (length 13, id 0,
version 1, augmentation "zR", data-alignment sleb, return-address register,
augmentation length 1, FDE encoding byte 0x12 = pcrel | udata2), followed at
address 20 by an FDE (length 8, CIE offset, start delta 4, size 6). -/
def wbytes : List Nat :=
  [13, 0, 0, 0, 0, 0, 0, 0, 1, 122, 82, 0, 1, 120, 0, 1, 18, 0, 0, 0,
   8, 0, 0, 0, 0, 0, 0, 0, 4, 0, 6, 0]

def wmem (a : Nat) : Nat := wbytes.getD a 0

/-- The decoder extracts exactly the encoded (start, size) = (entry+8+4, 6)
pair of a concrete pc-relative `udata2` FDE whose CIE declares encoding
0x12. -/
theorem fde_decode_exact_witness :
    parseCIE wmem 0 36 = some 18 ∧ decodeFDE wmem 20 18 = some (32, 6) := by
  refine ⟨by decide, ?_⟩
  have h := fde_decode_exact wmem 20 0 36 18 4 6 [4, 0, 6, 0] (by decide)
    (Or.inr (Or.inr (Or.inr (Or.inl rfl))))
    (by decide) (by decide) (by decide) (by decide) (by decide)
  rw [h]
  decide

end Debuginfo
